import Mathlib

/-!
Verification of the zero-id identifier codec (`src/index.ts`).

The embedding works at the level of `List Char` (one entry per UTF-16 code
unit; every string handled by the claims is ASCII, where code units and code
points coincide).  JavaScript `BigInt` arithmetic is modelled by `Int` with
`Int.tdiv` / `Int.tmod` (truncation toward zero, the BigInt convention), and
`Number` arithmetic on the involved integer ranges is exact.  The impure
inputs of the library (the wall clock `Date.now()`, the rejection-sampled
random characters of `randomBase62`, and the module-level monotonic state)
are threaded explicitly as arguments.
-/

/-- The base62 alphabet of `src/index.ts`, in ASCII order. -/
def BASE62_CHARS : List Char :=
  "0123456789ABCDEFGHIJKLMNOPQRSTUVWXYZabcdefghijklmnopqrstuvwxyz".data

/-- Model of `constants.MIN_TIMESTAMP`. -/
def MIN_TIMESTAMP : ℕ := 946684800000

/-- Model of `constants.MAX_TIMESTAMP`. -/
def MAX_TIMESTAMP : ℕ := 32503680000000

/-- JavaScript `String.prototype.indexOf` restricted to single characters:
first index of `c`, or `-1` when absent (accumulator form). -/
def indexOfFrom (c : Char) : List Char → ℤ → ℤ
  | [], _ => -1
  | d :: rest, i => if d = c then i else indexOfFrom c rest (i + 1)

/-- Model of `BASE62_CHARS.indexOf(c)`. -/
def b62Idx (c : Char) : ℤ := indexOfFrom c BASE62_CHARS 0

/-- The base62 digit value of an alphabet character (meaningful when
`c ∈ BASE62_CHARS`, where `b62Idx c` is non-negative). -/
def b62Val (c : Char) : ℕ := (b62Idx c).toNat

/-- Model of `BASE62_CHARS[d]`.  Out-of-range indexing (JavaScript `undefined`) is
mapped to `'?'`; every use below is proved in range. -/
def b62Char (d : ℕ) : Char := BASE62_CHARS.getD d '?'

/-- Model of `BASE62_CHARS[Number(i)]` for a BigInt index; a negative index (which in
JavaScript yields `undefined`) is mapped to `'?'` and is unreachable in every
claim below. -/
def b62CharOfInt (i : ℤ) : Char := if 0 ≤ i then b62Char i.toNat else '?'

/-- Model of `encodeBase62(num, length)`: fixed-width base62, most significant digit
first, by repeated divmod of the BigInt value. -/
def encodeBase62 : ℤ → ℕ → List Char
  | _, 0 => []
  | n, len + 1 => encodeBase62 (n.tdiv 62) len ++ [b62CharOfInt (n.tmod 62)]

/-- The loop of `decodeBase62`: returns `-1` as soon as a character is
outside the alphabet, otherwise accumulates `num * 62 + value`. -/
def decodeBase62Go : List Char → ℤ → ℤ
  | [], num => num
  | c :: rest, num => if b62Idx c = -1 then -1 else decodeBase62Go rest (num * 62 + b62Idx c)

/-- Model of `decodeBase62(str)`. -/
def decodeBase62 (s : List Char) : ℤ := decodeBase62Go s 0

/-- Membership in the character class of the regex `[0-9A-Za-z]`. -/
def isBase62Alnum (c : Char) : Bool :=
  ('0' ≤ c && c ≤ '9') || ('A' ≤ c && c ≤ 'Z') || ('a' ≤ c && c ≤ 'z')

/-- Model of the regex test `/^[0-9A-Za-z]+$/.test(s)`. -/
def reTest (l : List Char) : Bool := !l.isEmpty && l.all isBase62Alnum

/-- JavaScript string comparison `a < b`: lexicographic on code units. -/
def jsLt : List Char → List Char → Bool
  | [], [] => false
  | [], _ :: _ => true
  | _ :: _, [] => false
  | a :: as, b :: bs => if a < b then true else if b < a then false else jsLt as bs

/-- The loop of `calculateChecksum`:
`sum = (sum + BASE62_CHARS.indexOf(data[i]) * (i + 1)) % 3844`, with the
JavaScript truncated remainder (`Int.tmod`). -/
def calculateChecksumGo : List Char → ℕ → ℤ → ℤ
  | [], _, sum => sum
  | c :: rest, i, sum => calculateChecksumGo rest (i + 1) ((sum + b62Idx c * ((i : ℤ) + 1)).tmod 3844)

/-- Model of `calculateChecksum(data)`. -/
def calculateChecksum (data : List Char) : List Char :=
  encodeBase62 (calculateChecksumGo data 0 0) 2

/-- Model of `verifyChecksum(id)`: requires length ≥ 2, splits the trailing two
characters and recomputes the checksum of the rest. -/
def verifyChecksum (id : List Char) : Bool :=
  if id.length < 2 then false
  else calculateChecksum (id.take (id.length - 2)) == id.drop (id.length - 2)

/-- Modelled from the spec: the serialization used by the metadata sub-codec
is the host platform's `JSON.stringify` composed with `TextEncoder` (here
`stringify`, producing the UTF-8 bytes of the JSON text) and `TextDecoder`
composed with `JSON.parse` (here `parse`, `none` standing for a thrown
parse error).  These are platform built-ins, not code of this repository;
the spec requires that the structure "round-trip byte-for-byte through the
text serialization and back" and UTF-8 bytes are below 256; those two facts
are hypotheses of the theorems below and are proved for the concrete
instance `jcodec`. -/
structure JsonCodec (T : Type) where
  stringify : T → List ℕ
  parse : List ℕ → Option T

/-- Model of `encodeMetadata(metadata)`: two alphabet characters per byte
(`byte / 62` then `byte % 62`), preceded by the 3-character base62 encoding
of the character length of that body. -/
def encodeMetadata {T : Type} (codec : JsonCodec T) (metadata : T) : List Char :=
  let result := (codec.stringify metadata).flatMap
    (fun byte => [b62Char (byte / 62), b62Char (byte % 62)])
  encodeBase62 (result.length : ℤ) 3 ++ result

/-- The byte-pair loop of `decodeMetadata`: each pair of characters becomes
`high * 62 + low`; an out-of-alphabet character aborts with `none`.  An odd
trailing character also aborts (`indexOf(undefined)` is `-1` in the source);
the caller has already checked evenness. -/
def pairDecode : List Char → Option (List ℕ)
  | [] => some []
  | [_] => none
  | c1 :: c2 :: rest =>
      if b62Idx c1 = -1 ∨ b62Idx c2 = -1 then none
      else (pairDecode rest).map (fun bs => (b62Val c1 * 62 + b62Val c2) :: bs)

/-- Model of `decodeMetadata(encoded)`: parse the 3-character length prefix, slice the
declared body, reject an odd body, decode the byte pairs (the
`new Uint8Array` construction truncates each byte mod 256), and parse the
resulting bytes; returns the value and the number of characters consumed. -/
def decodeMetadata {T : Type} (codec : JsonCodec T) (encoded : List Char) : Option (T × ℕ) :=
  if encoded.length < 3 then none
  else
    let metadataLength := decodeBase62 (encoded.take 3)
    if metadataLength < 0 ∨ (encoded.length : ℤ) < 3 + metadataLength then none
    else
      let metadataPart := (encoded.drop 3).take metadataLength.toNat
      if metadataPart.length % 2 ≠ 0 then none
      else
        match pairDecode metadataPart with
        | none => none
        | some bytes =>
            (codec.parse (bytes.map (· % 256))).map (fun v => (v, 3 + metadataLength.toNat))

/-- The module-level mutable state `lastTimestamp` / `counter`. -/
structure GenState where
  lastTimestamp : ℕ
  counter : ℕ
deriving DecidableEq

/-- The state update at the top of `zeroId`, given the value read from
`Date.now()`. -/
def zeroIdTick (s : GenState) (now : ℕ) : GenState :=
  if now = s.lastTimestamp then { s with counter := s.counter + 1 }
  else { lastTimestamp := now, counter := 0 }

/-- Model of `zeroId(options)`.  Here `now` is the value read from `Date.now()`; `rand` is
the outcome of `randomBase62(randomLength)` (an arbitrary string over the
alphabet of that length — the rejection sampler can produce any of them);
the module state is threaded explicitly and the updated state returned. -/
def zeroId {T : Type} (codec : JsonCodec T) (s : GenState) (now : ℕ) (pfx : List Char)
    (metadata : Option T) (checksum : Bool) (rand : List Char) : GenState × List Char :=
  let s' := zeroIdTick s now
  let timestampWithCounter : ℤ := (now : ℤ) * 1000 + ((s'.counter % 1000 : ℕ) : ℤ)
  let timestampPart := encodeBase62 timestampWithCounter 9
  let metadataPart := match metadata with
    | some m => encodeMetadata codec m
    | none => []
  let core := timestampPart ++ metadataPart ++ rand
  let checksumPart := if checksum then calculateChecksum core else []
  (s', pfx ++ core ++ checksumPart)

/-- Model of `zeroIdAt(timestamp, options)`: explicit timestamp, sequence forced
to 0. -/
def zeroIdAt {T : Type} (codec : JsonCodec T) (timestamp : ℕ) (pfx : List Char)
    (metadata : Option T) (checksum : Bool) (rand : List Char) : List Char :=
  let timestampPart := encodeBase62 ((timestamp : ℤ) * 1000) 9
  let metadataPart := match metadata with
    | some m => encodeMetadata codec m
    | none => []
  let core := timestampPart ++ metadataPart ++ rand
  let checksumPart := if checksum then calculateChecksum core else []
  pfx ++ core ++ checksumPart

/-- The record returned by `decodeZeroId`; `createdAt` is omitted because it
is `new Date(timestamp)`, carrying the same information as `timestamp`. -/
structure DecodedZeroId (T : Type) where
  timestamp : ℕ
  metadata : Option T
deriving DecidableEq

/-- Model of `decodeZeroId(id, prefix, options)`. -/
def decodeZeroId {T : Type} (codec : JsonCodec T) (id : List Char) (pfx : List Char)
    (checksum : Bool) : Option (DecodedZeroId T) :=
  if pfx ≠ [] ∧ pfx.isPrefixOf id = false then none
  else
    let unprefixed := id.drop pfx.length
    let afterChecksum : Option (List Char) :=
      if checksum then
        if verifyChecksum unprefixed then some (unprefixed.take (unprefixed.length - 2))
        else none
      else some unprefixed
    match afterChecksum with
    | none => none
    | some stripped =>
        if stripped.length < 10 ∨ reTest stripped = false then none
        else
          let decoded := decodeBase62 (stripped.take 9)
          if decoded < 0 then none
          else
            let timestamp := decoded.toNat / 1000
            if timestamp < MIN_TIMESTAMP ∨ MAX_TIMESTAMP < timestamp then none
            else
              let metadataResult := decodeMetadata codec (stripped.drop 9)
              some { timestamp := timestamp, metadata := metadataResult.map Prod.fst }

/-- Model of `extractTimestamp(id, prefix)`: the decode-light path — length ≥ 9 and
the regex applied to the first nine characters only. -/
def extractTimestamp (id : List Char) (pfx : List Char) : Option ℕ :=
  if pfx ≠ [] ∧ pfx.isPrefixOf id = false then none
  else
    let unprefixed := id.drop pfx.length
    if unprefixed.length < 9 ∨ reTest (unprefixed.take 9) = false then none
    else
      let decoded := decodeBase62 (unprefixed.take 9)
      if decoded < 0 then none
      else
        let timestamp := decoded.toNat / 1000
        if timestamp < MIN_TIMESTAMP ∨ MAX_TIMESTAMP < timestamp then none
        else some timestamp

/-- Model of `isValidZeroId(id, prefix, options)`. -/
def isValidZeroId {T : Type} (codec : JsonCodec T) (id : List Char) (pfx : List Char)
    (checksum : Bool) : Bool :=
  (decodeZeroId codec id pfx checksum).isSome

/-- Model of `getAge(id, prefix)`, with the `Date.now()` reading passed as `now`. -/
def getAge (now : ℕ) (id : List Char) (pfx : List Char) : Option ℤ :=
  match extractTimestamp id pfx with
  | none => none
  | some timestamp => some ((now : ℤ) - (timestamp : ℤ))

/-- Model of `isBefore(id, date, prefix)` for a numeric `date`. -/
def isBefore (id : List Char) (date : ℕ) (pfx : List Char) : Bool :=
  match extractTimestamp id pfx with
  | none => false
  | some timestamp => decide (timestamp < date)

/-- Model of `isAfter(id, date, prefix)` for a numeric `date`. -/
def isAfter (id : List Char) (date : ℕ) (pfx : List Char) : Bool :=
  match extractTimestamp id pfx with
  | none => false
  | some timestamp => decide (date < timestamp)

/-- Model of `compareZeroIds(a, b, prefix)`; `none` models the thrown
`"Invalid zeroId format"` error. -/
def compareZeroIds (a b pfx : List Char) : Option ℤ :=
  let ua := if pfx ≠ [] then a.drop pfx.length else a
  let ub := if pfx ≠ [] then b.drop pfx.length else b
  if ua.length < 9 ∨ ub.length < 9 then none
  else
    let ta := ua.take 9
    let tb := ub.take 9
    if jsLt ta tb then some (-1) else if jsLt tb ta then some 1 else some 0

/-- The loop of `toBuffer`: three characters are packed into two bytes
(`(high << 4) | (low >> 2)` and `((low & 3) << 6) | next`), a trailing pair
into one byte, a trailing single character into `value << 2`; the
`new Uint8Array(bytes)` construction truncates every entry mod 256.
Character values are `b62Val`, meaningful on alphabet characters — every
claim below stays on alphabet input, away from JavaScript's `indexOf = -1`
32-bit coercions. -/
def toBufferGo : List Char → List ℕ
  | [] => []
  | [c] => [((b62Val c) <<< 2) % 256]
  | [c1, c2] => [(((b62Val c1) <<< 4) ||| ((b62Val c2) >>> 2)) % 256]
  | c1 :: c2 :: c3 :: rest =>
      ((((b62Val c1) <<< 4) ||| ((b62Val c2) >>> 2)) % 256) ::
      (((((b62Val c2) &&& 3) <<< 6) ||| b62Val c3) % 256) ::
      toBufferGo rest

/-- Model of `toBuffer(id, prefix)`. -/
def toBuffer (id : List Char) (pfx : List Char) : List ℕ :=
  toBufferGo (id.drop pfx.length)

/-- The loop of `fromBuffer`: three bytes unpack to four characters, a
trailing pair to three (the missing third byte read as 0), a trailing byte
to two. -/
def fromBufferGo : List ℕ → List Char
  | [] => []
  | [b1] => [b62Char (b1 >>> 2), b62Char ((b1 &&& 3) <<< 4)]
  | [b1, b2] =>
      [b62Char (b1 >>> 2), b62Char (((b1 &&& 3) <<< 4) ||| (b2 >>> 4)),
       b62Char ((b2 &&& 15) <<< 2)]
  | b1 :: b2 :: b3 :: rest =>
      b62Char (b1 >>> 2) :: b62Char (((b1 &&& 3) <<< 4) ||| (b2 >>> 4)) ::
      b62Char (((b2 &&& 15) <<< 2) ||| (b3 >>> 6)) :: b62Char (b3 &&& 63) ::
      fromBufferGo rest

/-- Model of `fromBuffer(buffer, prefix)`. -/
def fromBuffer (buffer : List ℕ) (pfx : List Char) : List Char :=
  pfx ++ fromBufferGo buffer

/-- Lower-case hexadecimal digit, as produced by `Number.toString(16)`. -/
def hexDigit (d : ℕ) : Char := "0123456789abcdef".data.getD d '?'

/-- Model of `val.toString(16).padStart(2, "0")` for an `indexOf` result: `-1`
renders as `"-1"`, a value in `0 … 255` as two hex digits. -/
def toHexPair (v : ℤ) : List Char :=
  if v < 0 then ['-', '1']
  else [hexDigit (v.toNat / 16), hexDigit (v.toNat % 16)]

/-- Model of `toUUID(id, prefix)`: two hex digits per character, padded/truncated to
32 digits, grouped 8-4-4-4-12 with dashes. -/
def toUUID (id : List Char) (pfx : List Char) : List Char :=
  let unprefixed := id.drop pfx.length
  let hex := unprefixed.flatMap (fun c => toHexPair (b62Idx c))
  let hex32 := (hex ++ List.replicate (32 - hex.length) '0').take 32
  hex32.take 8 ++ '-' :: (hex32.drop 8).take 4 ++ '-' :: (hex32.drop 12).take 4 ++
    '-' :: (hex32.drop 16).take 4 ++ '-' :: (hex32.drop 20).take 12

/-- The value of a hexadecimal digit, as accepted by `parseInt(_, 16)`. -/
def hexVal (c : Char) : Option ℕ :=
  if '0' ≤ c ∧ c ≤ '9' then some (c.toNat - 48)
  else if 'a' ≤ c ∧ c ≤ 'f' then some (c.toNat - 87)
  else if 'A' ≤ c ∧ c ≤ 'F' then some (c.toNat - 55)
  else none

/-- Model of `parseInt(twoChars, 16)`: parses the longest valid prefix; `none` models
`NaN`.  (Other `parseInt` quirks — signs, whitespace — do not occur in the
hex strings handled below.) -/
def parseHexPair (c1 c2 : Char) : Option ℕ :=
  match hexVal c1, hexVal c2 with
  | some v1, some v2 => some (v1 * 16 + v2)
  | some v1, none => some v1
  | none, _ => none

/-- The loop of `fromUUID`: each hex pair (or odd trailing digit) maps
through `value % 62` (the source's `val < 62` branch is the identity case of
the same reduction).  A `NaN` parse indexes the alphabet at `NaN`, and
JavaScript appends the string `"undefined"`. -/
def fromUUIDGo : List Char → List Char
  | [] => []
  | [c] =>
      match hexVal c with
      | some v => [b62Char (v % 62)]
      | none => "undefined".data
  | c1 :: c2 :: rest =>
      (match parseHexPair c1 c2 with
       | some v => [b62Char (v % 62)]
       | none => "undefined".data) ++ fromUUIDGo rest

/-- Model of `fromUUID(uuid, prefix)`: strip dashes, then decode hex pairs. -/
def fromUUID (uuid : List Char) (pfx : List Char) : List Char :=
  pfx ++ fromUUIDGo (uuid.filter (fun c => c != '-'))

/-- One call in a sequence of `zeroId` invocations: the `Date.now()` reading
and the per-call options and random outcome. -/
structure ZeroIdCall (T : Type) where
  now : ℕ
  metadata : Option T
  checksum : Bool
  rand : List Char

/-- The identifiers produced by a sequence of `zeroId` calls (empty prefix),
threading the module state. -/
def zeroIdRun {T : Type} (codec : JsonCodec T) (s : GenState) : List (ZeroIdCall T) → List (List Char)
  | [] => []
  | c :: calls =>
      (zeroId codec s c.now [] c.metadata c.checksum c.rand).2 ::
        zeroIdRun codec (zeroId codec s c.now [] c.metadata c.checksum c.rand).1 calls

/-- The encoded timestamp values (`now * 1000 + counter % 1000`) produced by
a sequence of `zeroId` calls. -/
def zeroIdRunValues (s : GenState) : List ℕ → List ℕ
  | [] => []
  | now :: rest =>
      (now * 1000 + (zeroIdTick s now).counter % 1000) :: zeroIdRunValues (zeroIdTick s now) rest

/-- A sublanguage of JSON values used to instantiate `JsonCodec` concretely:
single-digit number literals and strings of `n` letters `a`.  On this
sublanguage the serialization below agrees exactly with the host platform's
`JSON.stringify` / `JSON.parse`. -/
inductive JVal where
  | num : Fin 10 → JVal
  | astr : ℕ → JVal
deriving DecidableEq

/-- Model of `JSON.stringify` on the `JVal` sublanguage, as UTF-8 bytes: a digit for
`num`, `'"' ++ "aa…a" ++ '"'` for `astr`. -/
def jStringify : JVal → List ℕ
  | .num d => [48 + d.val]
  | .astr n => 34 :: (List.replicate n 97 ++ [34])

/-- Model of `JSON.parse` restricted to the image of the `JVal` sublanguage (other
inputs, on which the host parser may or may not succeed, map to `none`). -/
def jParse : List ℕ → Option JVal
  | [b] => if h : 48 ≤ b ∧ b ≤ 57 then some (.num ⟨b - 48, by omega⟩) else none
  | 34 :: b :: rest =>
      if (b :: rest).getLast? = some 34 ∧ ((b :: rest).take ((b :: rest).length - 1)).all (· == 97)
      then some (.astr ((b :: rest).length - 1)) else none
  | _ => none

/-- The concrete metadata codec built on the `JVal` sublanguage. -/
def jcodec : JsonCodec JVal :=
  { stringify := jStringify
    parse := jParse }
/-- Helper form of `encodeBase62` on natural inputs, used by the proofs. -/
def encodeBase62Nat : ℕ → ℕ → List Char
  | _, 0 => []
  | n, w + 1 => encodeBase62Nat (n / 62) w ++ [b62Char (n % 62)]

/-- Transcribed from the spec: "a weighted positional sum of the base62
values of every character in the core, each character's value multiplied by
(position+1)" — the raw sum, before reduction mod 3844. -/
def checksumWeightedSum : List Char → ℕ → ℕ
  | [], _ => 0
  | c :: rest, i => b62Val c * (i + 1) + checksumWeightedSum rest (i + 1)

/-! ## Properties of the concrete codec -/

theorem jStringify_byte : ∀ v b, b ∈ jStringify v → b < 256 := by
  intro v b hb
  cases v with
  | num d =>
      simp only [jStringify, List.mem_singleton] at hb
      omega
  | astr n =>
      simp only [jStringify, List.mem_cons, List.mem_append,
        List.mem_singleton] at hb
      rcases hb with rfl | h | h
      · omega
      · have := List.eq_of_mem_replicate h
        omega
      · rcases h with rfl | h
        · omega
        · simp at h

theorem jParse_jStringify : ∀ v, jParse (jStringify v) = some v := by
  intro v
  cases v with
  | num d =>
      have hd := d.isLt
      simp only [jStringify, jParse]
      rw [dif_pos (by omega)]
      congr 1
      congr 1
      exact Fin.ext (show 48 + d.val - 48 = d.val by omega)
  | astr n =>
      cases n with
      | zero => rfl
      | succ m =>
          have h1 : jStringify (JVal.astr (m + 1)) = 34 :: 97 :: (List.replicate m 97 ++ [34]) := by
            simp [jStringify, List.replicate_succ]
          have h2 : (97 :: (List.replicate m 97 ++ [34]) : List ℕ) =
              List.replicate (m + 1) 97 ++ [34] := by
            simp [List.replicate_succ]
          have ht : (List.replicate (m + 1) (97 : ℕ) ++ [34]).take (m + 1) =
              List.replicate (m + 1) 97 := by
            have h := List.take_left (List.replicate (m + 1) (97 : ℕ)) ([34] : List ℕ)
            rw [List.length_replicate] at h
            exact h
          rw [h1]
          simp only [jParse]
          rw [if_pos]
          · congr 1
            congr 1
            simp
          · constructor
            · rw [h2]
              simp [List.getLast?_concat]
            · rw [h2]
              have hlen : (List.replicate (m + 1) (97 : ℕ) ++ [34]).length - 1 = m + 1 := by
                simp
              rw [hlen, ht]
              simp


/-! ## Basic facts about the alphabet and the base62 codec -/

theorem b62_mem_facts : ∀ c ∈ BASE62_CHARS,
    0 ≤ b62Idx c ∧ b62Idx c < 62 ∧ isBase62Alnum c = true ∧ b62Char (b62Val c) = c := by
  decide

theorem b62Char_digit : ∀ d : Fin 62,
    b62Idx (b62Char d.val) = (d.val : ℤ) ∧ b62Char d.val ∈ BASE62_CHARS ∧
    isBase62Alnum (b62Char d.val) = true := by
  decide

theorem b62Char_lt : ∀ d1 d2 : Fin 62, d1.val < d2.val → b62Char d1.val < b62Char d2.val := by
  decide

theorem b62Idx_b62Char {d : ℕ} (h : d < 62) : b62Idx (b62Char d) = (d : ℤ) :=
  (b62Char_digit ⟨d, h⟩).1

theorem b62Char_mem {d : ℕ} (h : d < 62) : b62Char d ∈ BASE62_CHARS :=
  (b62Char_digit ⟨d, h⟩).2.1

theorem ofNat_tmod (a b : ℕ) : ((a : ℤ)).tmod (b : ℤ) = ((a % b : ℕ) : ℤ) := by
  rw [Int.tmod_eq_emod (by positivity) (by positivity)]
  push_cast
  rfl

theorem encodeBase62_ofNat (n w : ℕ) : encodeBase62 ((n : ℕ) : ℤ) w = encodeBase62Nat n w := by
  induction w generalizing n with
  | zero => rfl
  | succ w ih =>
      show encodeBase62 ((n : ℤ)) (w + 1) = encodeBase62Nat n (w + 1)
      rw [encodeBase62, encodeBase62Nat]
      have htd : ((n : ℤ)).tdiv 62 = ((n / 62 : ℕ) : ℤ) := (Int.ofNat_tdiv n 62).symm
      have htm : ((n : ℤ)).tmod 62 = ((n % 62 : ℕ) : ℤ) := ofNat_tmod n 62
      rw [htd, htm, ih]
      have : b62CharOfInt ((n % 62 : ℕ) : ℤ) = b62Char (n % 62) := by
        rw [b62CharOfInt, if_pos (by positivity)]
        rw [Int.toNat_ofNat]
      rw [this]

theorem encodeBase62_length (n : ℤ) (w : ℕ) : (encodeBase62 n w).length = w := by
  induction w generalizing n with
  | zero => rfl
  | succ w ih => simp [encodeBase62, ih]

theorem encodeBase62Nat_length (n w : ℕ) : (encodeBase62Nat n w).length = w := by
  rw [← encodeBase62_ofNat, encodeBase62_length]

theorem encodeBase62Nat_mem (n w : ℕ) : ∀ c ∈ encodeBase62Nat n w, c ∈ BASE62_CHARS := by
  induction w generalizing n with
  | zero => intro c hc; simp [encodeBase62Nat] at hc
  | succ w ih =>
      intro c hc
      rw [encodeBase62Nat] at hc
      rcases List.mem_append.mp hc with h | h
      · exact ih (n / 62) c h
      · rw [List.mem_singleton.mp h]
        exact b62Char_mem (Nat.mod_lt n (by norm_num))

theorem decodeBase62Go_append (l1 l2 : List Char) (acc : ℤ)
    (h : ∀ c ∈ l1, b62Idx c ≠ -1) :
    decodeBase62Go (l1 ++ l2) acc = decodeBase62Go l2 (decodeBase62Go l1 acc) := by
  induction l1 generalizing acc with
  | nil => rfl
  | cons c rest ih =>
      have hc : b62Idx c ≠ -1 := h c (by simp)
      simp only [List.cons_append, decodeBase62Go, if_neg hc]
      exact ih _ (fun d hd => h d (by simp [hd]))

theorem decodeBase62Go_encodeNat (w n : ℕ) (acc : ℤ) :
    decodeBase62Go (encodeBase62Nat n w) acc = acc * 62 ^ w + ((n % 62 ^ w : ℕ) : ℤ) := by
  induction w generalizing n acc with
  | zero => simp [encodeBase62Nat, decodeBase62Go, Nat.mod_one]
  | succ w ih =>
      have hvalid : ∀ c ∈ encodeBase62Nat (n / 62) w, b62Idx c ≠ -1 := by
        intro c hc
        have := (b62_mem_facts c (encodeBase62Nat_mem (n / 62) w c hc)).1
        omega
      rw [encodeBase62Nat, decodeBase62Go_append _ _ _ hvalid, ih]
      have hd : b62Idx (b62Char (n % 62)) = ((n % 62 : ℕ) : ℤ) :=
        b62Idx_b62Char (Nat.mod_lt n (by norm_num))
      rw [decodeBase62Go, decodeBase62Go, if_neg (by rw [hd]; omega)]
      rw [hd]
      have hsplit : n % 62 ^ (w + 1) = n % 62 + 62 * (n / 62 % 62 ^ w) := by
        have := Nat.mod_mul (a := 62) (b := 62 ^ w) (x := n)
        rw [← this, pow_succ, mul_comm]
      rw [hsplit]
      push_cast
      ring

theorem decodeBase62_encodeNat (n w : ℕ) :
    decodeBase62 (encodeBase62Nat n w) = ((n % 62 ^ w : ℕ) : ℤ) := by
  rw [decodeBase62, decodeBase62Go_encodeNat]
  ring

/-! ## Lexicographic order facts for `jsLt` -/

theorem jsLt_append_right (xs : List Char) :
    ∀ ys : List Char, jsLt xs ys = true → xs.length = ys.length →
    ∀ a b : Char, jsLt (xs ++ [a]) (ys ++ [b]) = true := by
  induction xs with
  | nil =>
      intro ys h hlen a b
      cases ys with
      | nil => simp [jsLt] at h
      | cons y ys' => simp at hlen
  | cons x xs' ih =>
      intro ys h hlen a b
      cases ys with
      | nil => simp [jsLt] at h
      | cons y ys' =>
          simp only [List.cons_append, jsLt]
          by_cases hxy : x < y
          · rw [if_pos hxy]
          · rw [if_neg hxy]
            rw [jsLt, if_neg hxy] at h
            by_cases hyx : y < x
            · rw [if_pos hyx] at h
              simp at h
            · rw [if_neg hyx] at h
              rw [if_neg hyx]
              exact ih ys' h (by simpa using hlen) a b

theorem jsLt_append_lt (xs : List Char) {a b : Char} (h : a < b) :
    jsLt (xs ++ [a]) (xs ++ [b]) = true := by
  induction xs with
  | nil => simp [jsLt, h]
  | cons x xs' ih =>
      simp only [List.cons_append, jsLt, if_neg (lt_irrefl x)]
      exact ih

theorem encodeBase62Nat_strictMono (w v1 v2 : ℕ) (h1 : v1 < v2) (h2 : v2 < 62 ^ w) :
    jsLt (encodeBase62Nat v1 w) (encodeBase62Nat v2 w) = true := by
  induction w generalizing v1 v2 with
  | zero => simp at h2; omega
  | succ w ih =>
      rw [encodeBase62Nat, encodeBase62Nat]
      have hq : v1 / 62 ≤ v2 / 62 := Nat.div_le_div_right (le_of_lt h1)
      rcases eq_or_lt_of_le hq with heq | hlt
      · rw [heq]
        have hr1 : v1 % 62 < 62 := Nat.mod_lt v1 (by norm_num)
        have hr2 : v2 % 62 < 62 := Nat.mod_lt v2 (by norm_num)
        have hd1 := Nat.div_add_mod v1 62
        have hd2 := Nat.div_add_mod v2 62
        have hr : v1 % 62 < v2 % 62 := by omega
        exact jsLt_append_lt _ (b62Char_lt ⟨v1 % 62, hr1⟩ ⟨v2 % 62, hr2⟩ hr)
      · have hbound : v2 / 62 < 62 ^ w := by
          rw [Nat.div_lt_iff_lt_mul (by norm_num)]
          calc v2 < 62 ^ (w + 1) := h2
          _ = 62 ^ w * 62 := by rw [pow_succ]
        exact jsLt_append_right _ _ (ih _ _ hlt hbound)
          (by rw [encodeBase62Nat_length, encodeBase62Nat_length]) _ _

/-- C1: for all naturals `v < 62^w`, `decodeBase62 (encodeBase62 v w) = v`,
and because the alphabet is in ASCII order, JavaScript string comparison of
equal-width encodings agrees with numeric comparison: `v1 < v2 < 62^w`
implies `encodeBase62 v1 w` is strictly smaller than `encodeBase62 v2 w` as
a string. -/
theorem base62_roundtrip_and_order (w : ℕ) :
    (∀ v : ℕ, v < 62 ^ w → decodeBase62 (encodeBase62 ((v : ℕ) : ℤ) w) = ((v : ℕ) : ℤ)) ∧
    (∀ v1 v2 : ℕ, v1 < v2 → v2 < 62 ^ w →
      jsLt (encodeBase62 ((v1 : ℕ) : ℤ) w) (encodeBase62 ((v2 : ℕ) : ℤ) w) = true) := by
  constructor
  · intro v hv
    rw [encodeBase62_ofNat, decodeBase62_encodeNat, Nat.mod_eq_of_lt hv]
  · intro v1 v2 h1 h2
    rw [encodeBase62_ofNat, encodeBase62_ofNat]
    exact encodeBase62Nat_strictMono w v1 v2 h1 h2

/-- Witness for C1 at `w = 9`, `v = 12345` and `v1 = 100 < v2 = 200`. -/
theorem base62_roundtrip_and_order_witness :
    decodeBase62 (encodeBase62 ((12345 : ℕ) : ℤ) 9) = ((12345 : ℕ) : ℤ) ∧
    jsLt (encodeBase62 ((100 : ℕ) : ℤ) 9) (encodeBase62 ((200 : ℕ) : ℤ) 9) = true :=
  ⟨(base62_roundtrip_and_order 9).1 12345 (by norm_num),
   (base62_roundtrip_and_order 9).2 100 200 (by norm_num) (by norm_num)⟩

/-! ## The checksum sub-codec (C5) -/

theorem b62Idx_eq_val {c : Char} (h : c ∈ BASE62_CHARS) :
    b62Idx c = ((b62Val c : ℕ) : ℤ) := by
  have h0 := (b62_mem_facts c h).1
  rw [b62Val, Int.toNat_of_nonneg h0]

theorem calculateChecksumGo_eq (l : List Char) (h : ∀ c ∈ l, c ∈ BASE62_CHARS) :
    ∀ (i acc : ℕ), acc < 3844 →
    calculateChecksumGo l i ((acc : ℕ) : ℤ) = (((acc + checksumWeightedSum l i) % 3844 : ℕ) : ℤ) := by
  induction l with
  | nil =>
      intro i acc hacc
      rw [calculateChecksumGo, checksumWeightedSum]
      rw [Nat.add_zero, Nat.mod_eq_of_lt hacc]
  | cons c rest ih =>
      intro i acc hacc
      have hc : c ∈ BASE62_CHARS := h c (by simp)
      have hrest : ∀ d ∈ rest, d ∈ BASE62_CHARS := fun d hd => h d (by simp [hd])
      rw [calculateChecksumGo]
      have harg : ((acc : ℤ) + b62Idx c * ((i : ℤ) + 1)).tmod 3844 =
          (((acc + b62Val c * (i + 1)) % 3844 : ℕ) : ℤ) := by
        rw [b62Idx_eq_val hc]
        rw [show ((acc : ℤ) + ((b62Val c : ℕ) : ℤ) * ((i : ℤ) + 1)) =
            (((acc + b62Val c * (i + 1) : ℕ) : ℕ) : ℤ) by push_cast; ring]
        exact ofNat_tmod _ 3844
      rw [harg, ih hrest (i + 1) _ (Nat.mod_lt _ (by norm_num))]
      rw [checksumWeightedSum]
      congr 1
      rw [Nat.mod_add_mod]
      exact congrArg (· % 3844) (by ring)

theorem calculateChecksum_eq_spec (core : List Char) (h : ∀ c ∈ core, c ∈ BASE62_CHARS) :
    calculateChecksum core = encodeBase62 ((checksumWeightedSum core 0 % 3844 : ℕ) : ℤ) 2 := by
  have hgo := calculateChecksumGo_eq core h 0 0 (by norm_num)
  simp only [Nat.cast_zero, Nat.zero_add, zero_add] at hgo
  rw [calculateChecksum, hgo]

theorem verifyChecksum_append (core : List Char) :
    verifyChecksum (core ++ calculateChecksum core) = true := by
  have hlen2 : (calculateChecksum core).length = 2 := encodeBase62_length _ 2
  have hl : (core ++ calculateChecksum core).length = core.length + 2 := by
    simp [hlen2]
  rw [verifyChecksum, hl, if_neg (by omega)]
  rw [Nat.add_sub_cancel]
  rw [List.take_left' rfl, List.drop_left' rfl]
  simp

/-- C5: `calculateChecksum core` is the weighted positional sum of the
base62 values (weight `position + 1`), reduced mod 3844 and encoded as
exactly two base62 characters; appending it to its core always verifies;
and `verifyChecksum` is false on every string shorter than two
characters. -/
theorem checksum_correct :
    (∀ core : List Char, (∀ c ∈ core, c ∈ BASE62_CHARS) →
      calculateChecksum core = encodeBase62 ((checksumWeightedSum core 0 % 3844 : ℕ) : ℤ) 2 ∧
      (calculateChecksum core).length = 2 ∧
      verifyChecksum (core ++ calculateChecksum core) = true) ∧
    (∀ id : List Char, id.length < 2 → verifyChecksum id = false) := by
  constructor
  · intro core h
    exact ⟨calculateChecksum_eq_spec core h, encodeBase62_length _ 2, verifyChecksum_append core⟩
  · intro id h
    rw [verifyChecksum, if_pos h]

/-- Witness for C5 at the core `"0123456789"` and the short string `"z"`. -/
theorem checksum_correct_witness :
    calculateChecksum ("0123456789".data) =
      encodeBase62 ((checksumWeightedSum ("0123456789".data) 0 % 3844 : ℕ) : ℤ) 2 ∧
    verifyChecksum ("0123456789".data ++ calculateChecksum ("0123456789".data)) = true ∧
    verifyChecksum ['z'] = false :=
  ⟨(checksum_correct.1 ("0123456789".data) (by decide)).1,
   (checksum_correct.1 ("0123456789".data) (by decide)).2.2,
   checksum_correct.2 ['z'] (by decide)⟩

/-! ## compareZeroIds (C6) -/

theorem jsLt_irrefl (l : List Char) : jsLt l l = false := by
  induction l with
  | nil => rfl
  | cons c rest ih => rw [jsLt, if_neg (lt_irrefl c), if_neg (lt_irrefl c)]; exact ih

theorem jsLt_asymm : ∀ a b : List Char, jsLt a b = true → jsLt b a = false := by
  intro a
  induction a with
  | nil =>
      intro b hb
      cases b with
      | nil => simp [jsLt] at hb
      | cons y ys => rfl
  | cons x xs ih =>
      intro b hb
      cases b with
      | nil => simp [jsLt] at hb
      | cons y ys =>
          rw [jsLt] at hb ⊢
          by_cases hxy : x < y
          · rw [if_pos hxy, if_neg (asymm hxy)]
          · rw [if_neg hxy] at hb
            by_cases hyx : y < x
            · rw [if_pos hyx] at hb
              simp at hb
            · rw [if_neg hyx] at hb
              rw [if_neg hyx, if_neg hxy]
              exact ih ys hb

theorem jsLt_eq_of_not : ∀ a b : List Char, jsLt a b = false → jsLt b a = false → a = b := by
  intro a
  induction a with
  | nil =>
      intro b h1 _
      cases b with
      | nil => rfl
      | cons y ys => simp [jsLt] at h1
  | cons x xs ih =>
      intro b h1 h2
      cases b with
      | nil => simp [jsLt] at h2
      | cons y ys =>
          rw [jsLt] at h1 h2
          by_cases hxy : x < y
          · rw [if_pos hxy] at h1
            simp at h1
          · by_cases hyx : y < x
            · rw [if_pos hyx] at h2
              simp at h2
            · rw [if_neg hxy, if_neg hyx] at h1
              rw [if_neg hyx, if_neg hxy] at h2
              have hx : x = y := le_antisymm (le_of_not_lt hyx) (le_of_not_lt hxy)
              rw [hx, ih ys h1 h2]

theorem drop_strip (a pfx : List Char) :
    (if pfx ≠ [] then a.drop pfx.length else a) = a.drop pfx.length := by
  by_cases hp : pfx = []
  · simp [hp]
  · simp [hp]

/-- C6: `compareZeroIds a b pfx` signals the format error exactly when one
of the prefix-stripped arguments is shorter than 9 characters; otherwise it
returns exactly `-1`, `0` or `1` according to plain JavaScript string
comparison of the two 9-character timestamp substrings (no decoding, no
range check). -/
theorem compareZeroIds_spec (a b pfx : List Char) :
    (compareZeroIds a b pfx = none ↔
      (a.drop pfx.length).length < 9 ∨ (b.drop pfx.length).length < 9) ∧
    (9 ≤ (a.drop pfx.length).length → 9 ≤ (b.drop pfx.length).length →
      ∃ r : ℤ, compareZeroIds a b pfx = some r ∧ (r = -1 ∨ r = 0 ∨ r = 1) ∧
        (r = -1 ↔ jsLt ((a.drop pfx.length).take 9) ((b.drop pfx.length).take 9) = true) ∧
        (r = 1 ↔ jsLt ((b.drop pfx.length).take 9) ((a.drop pfx.length).take 9) = true) ∧
        (r = 0 ↔ (a.drop pfx.length).take 9 = (b.drop pfx.length).take 9)) := by
  have hcmp : compareZeroIds a b pfx =
      (if (a.drop pfx.length).length < 9 ∨ (b.drop pfx.length).length < 9 then none
       else if jsLt ((a.drop pfx.length).take 9) ((b.drop pfx.length).take 9) then some (-1)
       else if jsLt ((b.drop pfx.length).take 9) ((a.drop pfx.length).take 9) then some 1
       else some 0) := by
    rw [compareZeroIds]
    rw [drop_strip a pfx, drop_strip b pfx]
  set ta := (a.drop pfx.length).take 9 with hta
  set tb := (b.drop pfx.length).take 9 with htb
  by_cases hshort : (a.drop pfx.length).length < 9 ∨ (b.drop pfx.length).length < 9
  · rw [hcmp, if_pos hshort]
    exact ⟨⟨fun _ => hshort, fun _ => rfl⟩, fun h1 h2 => absurd hshort (by omega)⟩
  · rw [hcmp, if_neg hshort]
    constructor
    · constructor
      · intro h
        by_cases h1 : jsLt ta tb
        · rw [if_pos h1] at h
          exact absurd h (by simp)
        · by_cases h2 : jsLt tb ta
          · rw [if_neg h1, if_pos h2] at h
            exact absurd h (by simp)
          · rw [if_neg h1, if_neg h2] at h
            exact absurd h (by simp)
      · intro h
        exact absurd h hshort
    · intro _ _
      by_cases h1 : jsLt ta tb
      · have hasymm : jsLt tb ta = false := jsLt_asymm ta tb h1
        refine ⟨-1, by rw [if_pos h1], by norm_num, ⟨fun _ => h1, fun _ => rfl⟩, ?_, ?_⟩
        · constructor
          · intro h
            norm_num at h
          · intro h
            rw [hasymm] at h
            simp at h
        · constructor
          · intro h
            norm_num at h
          · intro h
            rw [h, jsLt_irrefl] at h1
            simp at h1
      · by_cases h2 : jsLt tb ta
        · refine ⟨1, by rw [if_neg h1, if_pos h2], by norm_num, ?_, ⟨fun _ => h2, fun _ => rfl⟩, ?_⟩
          · constructor
            · intro h
              norm_num at h
            · intro h
              exact absurd h h1
          · constructor
            · intro h
              norm_num at h
            · intro h
              rw [h, jsLt_irrefl] at h2
              simp at h2
        · have heq : ta = tb :=
            jsLt_eq_of_not ta tb (Bool.eq_false_iff.mpr h1) (Bool.eq_false_iff.mpr h2)
          refine ⟨0, by rw [if_neg h1, if_neg h2], by norm_num, ?_, ?_, ⟨fun _ => heq, fun _ => rfl⟩⟩
          · constructor
            · intro h
              norm_num at h
            · intro h
              exact absurd h h1
          · constructor
            · intro h
              norm_num at h
            · intro h
              exact absurd h h2

/-- Witness for C6: a decided comparison and a signalled format error. -/
theorem compareZeroIds_spec_witness :
    compareZeroIds ("u_000000001".data) ("u_000000002".data) ("u_".data) = some (-1) ∧
    compareZeroIds ("u_0000".data) ("u_000000002".data) ("u_".data) = none := by
  constructor
  · obtain ⟨r, hr, _, h1, _, _⟩ :=
      (compareZeroIds_spec ("u_000000001".data) ("u_000000002".data) ("u_".data)).2
        (by decide) (by decide)
    rw [h1.mpr (by decide)] at hr
    exact hr
  · exact (compareZeroIds_spec ("u_0000".data) ("u_000000002".data) ("u_".data)).1.mpr
      (by decide)

/-! ## The assembled encoder and decoder -/

theorem reTest_of_mem (l : List Char) (hne : l ≠ []) (h : ∀ c ∈ l, c ∈ BASE62_CHARS) :
    reTest l = true := by
  have h1 : l.isEmpty = false := by
    cases l with
    | nil => simp at hne
    | cons c cs => rfl
  have h2 : l.all isBase62Alnum = true :=
    List.all_eq_true.mpr (fun c hc => (b62_mem_facts c (h c hc)).2.2.1)
  rw [reTest, h1, h2]
  rfl

theorem encodeBase62_mem_of_nonneg {n : ℤ} (hn : 0 ≤ n) (w : ℕ) :
    ∀ c ∈ encodeBase62 n w, c ∈ BASE62_CHARS := by
  rw [← Int.toNat_of_nonneg hn, encodeBase62_ofNat]
  exact encodeBase62Nat_mem _ w

theorem encodeMetadata_mem {T : Type} (codec : JsonCodec T) (v : T)
    (hbytes : ∀ b ∈ codec.stringify v, b < 256) :
    ∀ c ∈ encodeMetadata codec v, c ∈ BASE62_CHARS := by
  intro c hc
  simp only [encodeMetadata] at hc
  rcases List.mem_append.mp hc with h | h
  · exact encodeBase62_mem_of_nonneg (by positivity) 3 c h
  · rcases List.mem_flatMap.mp h with ⟨b, hb, hcb⟩
    have hblt : b < 256 := hbytes b hb
    rcases List.mem_cons.mp hcb with rfl | hcb'
    · exact b62Char_mem (by omega)
    · rw [List.mem_singleton.mp hcb']
      exact b62Char_mem (Nat.mod_lt b (by norm_num))

theorem calculateChecksumGo_nonneg (l : List Char) (h : ∀ c ∈ l, c ∈ BASE62_CHARS) :
    ∀ (i : ℕ) (acc : ℤ), 0 ≤ acc → 0 ≤ calculateChecksumGo l i acc := by
  induction l with
  | nil =>
      intro i acc hacc
      exact hacc
  | cons c rest ih =>
      intro i acc hacc
      rw [calculateChecksumGo]
      refine ih (fun d hd => h d (by simp [hd])) (i + 1) _ (Int.tmod_nonneg _ ?_)
      have := (b62_mem_facts c (h c (by simp))).1
      positivity

theorem calculateChecksum_mem (data : List Char) (h : ∀ c ∈ data, c ∈ BASE62_CHARS) :
    ∀ c ∈ calculateChecksum data, c ∈ BASE62_CHARS := by
  rw [calculateChecksum]
  exact encodeBase62_mem_of_nonneg
    (calculateChecksumGo_nonneg data h 0 0 (by norm_num)) 2

theorem isPrefixOf_append (pfx rest : List Char) : pfx.isPrefixOf (pfx ++ rest) = true := by
  rw [List.isPrefixOf_iff_prefix]
  exact List.prefix_append pfx rest

set_option maxHeartbeats 1000000 in
/-- The decoding pipeline of `decodeZeroId` without checksum verification,
on a well-formed identifier `prefix ++ timestampField ++ tail`: it succeeds
and returns `value / 1000` together with the attempted metadata decode of
`tail`. -/
theorem decodeZeroId_parts {T : Type} (codec : JsonCodec T) (pfx : List Char) (val : ℕ)
    (tail : List Char) (hval : val < 62 ^ 9) (htail : ∀ c ∈ tail, c ∈ BASE62_CHARS)
    (hlen : 1 ≤ tail.length) (hts1 : MIN_TIMESTAMP ≤ val / 1000)
    (hts2 : val / 1000 ≤ MAX_TIMESTAMP) :
    decodeZeroId codec (pfx ++ (encodeBase62Nat val 9 ++ tail)) pfx false =
      some ⟨val / 1000, (decodeMetadata codec tail).map Prod.fst⟩ := by
  have hpre := isPrefixOf_append pfx (encodeBase62Nat val 9 ++ tail)
  have hdrop : (pfx ++ (encodeBase62Nat val 9 ++ tail)).drop pfx.length =
      encodeBase62Nat val 9 ++ tail := List.drop_left pfx _
  have henclen : (encodeBase62Nat val 9).length = 9 := encodeBase62Nat_length val 9
  have hlsum : (encodeBase62Nat val 9 ++ tail).length = 9 + tail.length := by
    simp [henclen]
  have hre : reTest (encodeBase62Nat val 9 ++ tail) = true := by
    refine reTest_of_mem _ (by intro hcon; rw [hcon] at hlsum; simp at hlsum; omega) ?_
    intro c hc
    rcases List.mem_append.mp hc with h | h
    · exact encodeBase62Nat_mem val 9 c h
    · exact htail c h
  have htake : (encodeBase62Nat val 9 ++ tail).take 9 = encodeBase62Nat val 9 :=
    List.take_left' henclen
  have hdrop9 : (encodeBase62Nat val 9 ++ tail).drop 9 = tail :=
    List.drop_left' henclen
  have hdec : decodeBase62 (encodeBase62Nat val 9) = ((val : ℕ) : ℤ) := by
    rw [decodeBase62_encodeNat, Nat.mod_eq_of_lt hval]
  rw [decodeZeroId, if_neg (by simp [hpre])]
  simp only [hdrop]
  show (if (encodeBase62Nat val 9 ++ tail).length < 10 ∨
          reTest (encodeBase62Nat val 9 ++ tail) = false then none
    else if decodeBase62 ((encodeBase62Nat val 9 ++ tail).take 9) < 0 then none
    else if (decodeBase62 ((encodeBase62Nat val 9 ++ tail).take 9)).toNat / 1000 < MIN_TIMESTAMP ∨
        MAX_TIMESTAMP < (decodeBase62 ((encodeBase62Nat val 9 ++ tail).take 9)).toNat / 1000 then
      none
    else some (DecodedZeroId.mk ((decodeBase62 ((encodeBase62Nat val 9 ++ tail).take 9)).toNat / 1000)
      ((decodeMetadata codec ((encodeBase62Nat val 9 ++ tail).drop 9)).map Prod.fst))) =
    some (DecodedZeroId.mk (val / 1000) ((decodeMetadata codec tail).map Prod.fst))
  rw [htake, hdec, hdrop9]
  rw [if_neg (by rw [hlsum, hre]; push_neg; exact ⟨by omega, by simp⟩)]
  rw [if_neg (by omega)]
  rw [Int.toNat_ofNat]
  rw [if_neg (by push_neg; exact ⟨hts1, hts2⟩)]

/-- Decoding with `checksum: true` an identifier that carries the checksum
of its core behaves like decoding the identifier without the checksum
characters and with `checksum: false`. -/
theorem decodeZeroId_checksum {T : Type} (codec : JsonCodec T) (pfx core : List Char) :
    decodeZeroId codec (pfx ++ (core ++ calculateChecksum core)) pfx true =
      decodeZeroId codec (pfx ++ core) pfx false := by
  have hpre1 := isPrefixOf_append pfx (core ++ calculateChecksum core)
  have hpre2 := isPrefixOf_append pfx core
  have hdrop1 : (pfx ++ (core ++ calculateChecksum core)).drop pfx.length =
      core ++ calculateChecksum core := List.drop_left pfx _
  have hdrop2 : (pfx ++ core).drop pfx.length = core := List.drop_left pfx core
  have hcslen : (calculateChecksum core).length = 2 := encodeBase62_length _ 2
  have hlen : (core ++ calculateChecksum core).length = core.length + 2 := by
    simp [hcslen]
  have hstrip : (core ++ calculateChecksum core).take
      ((core ++ calculateChecksum core).length - 2) = core := by
    rw [hlen, Nat.add_sub_cancel, List.take_left' rfl]
  rw [decodeZeroId, decodeZeroId, if_neg (by simp [hpre1]), if_neg (by simp [hpre2])]
  simp only [hdrop1, hdrop2]
  rw [if_pos (verifyChecksum_append core), hstrip]
  simp

/-! ## The metadata sub-codec -/

theorem flatMap_pair_length (bytes : List ℕ) :
    (bytes.flatMap (fun byte => [b62Char (byte / 62), b62Char (byte % 62)])).length =
      2 * bytes.length := by
  induction bytes with
  | nil => rfl
  | cons b rest ih =>
      rw [List.flatMap_cons, List.length_append, ih]
      simp
      ring

theorem b62Val_b62Char {d : ℕ} (h : d < 62) : b62Val (b62Char d) = d := by
  rw [b62Val, b62Idx_b62Char h, Int.toNat_ofNat]

theorem pairDecode_encode (bytes : List ℕ) (h : ∀ b ∈ bytes, b < 256) :
    pairDecode (bytes.flatMap (fun byte => [b62Char (byte / 62), b62Char (byte % 62)])) =
      some bytes := by
  induction bytes with
  | nil => rfl
  | cons b rest ih =>
      have hb : b < 256 := h b (by simp)
      have hdiv : b / 62 < 62 := by omega
      have hmod : b % 62 < 62 := Nat.mod_lt b (by norm_num)
      rw [List.flatMap_cons]
      simp only [List.cons_append, List.nil_append]
      rw [pairDecode]
      rw [if_neg (by
        push_neg
        constructor
        · rw [b62Idx_b62Char hdiv]; omega
        · rw [b62Idx_b62Char hmod]; omega)]
      rw [ih (fun d hd => h d (by simp [hd]))]
      rw [Option.map_some']
      congr 2
      rw [b62Val_b62Char hdiv, b62Val_b62Char hmod]
      omega

theorem map_mod256_id (bytes : List ℕ) (h : ∀ b ∈ bytes, b < 256) :
    bytes.map (· % 256) = bytes := by
  induction bytes with
  | nil => rfl
  | cons b rest ih =>
      rw [List.map_cons, Nat.mod_eq_of_lt (h b (by simp)), ih (fun d hd => h d (by simp [hd]))]

set_option maxHeartbeats 1000000 in
/-- Inversion: `decodeMetadata` inverts `encodeMetadata` on any continuation `rest`,
provided the body fits the 3-character length prefix, and consumes exactly
the metadata block. -/
theorem decodeMetadata_encodeMetadata {T : Type} (codec : JsonCodec T) (v : T) (rest : List Char)
    (hbytes : ∀ b ∈ codec.stringify v, b < 256)
    (hround : codec.parse (codec.stringify v) = some v)
    (hsize : 2 * (codec.stringify v).length < 62 ^ 3) :
    decodeMetadata codec (encodeMetadata codec v ++ rest) =
      some (v, 3 + 2 * (codec.stringify v).length) := by
  set body := (codec.stringify v).flatMap
    (fun byte => [b62Char (byte / 62), b62Char (byte % 62)]) with hbody
  have hblen : body.length = 2 * (codec.stringify v).length := flatMap_pair_length _
  have hbe : encodeBase62 ((body.length : ℕ) : ℤ) 3 = encodeBase62Nat body.length 3 :=
    encodeBase62_ofNat _ 3
  have hassoc : encodeMetadata codec v ++ rest =
      encodeBase62Nat body.length 3 ++ (body ++ rest) := by
    rw [encodeMetadata]
    rw [← hbody, hbe, List.append_assoc]
  have henclen : (encodeBase62Nat body.length 3).length = 3 := encodeBase62Nat_length _ 3
  have hlsum : (encodeBase62Nat body.length 3 ++ (body ++ rest)).length =
      3 + (body.length + rest.length) := by
    simp [henclen]
  have htake3 : (encodeBase62Nat body.length 3 ++ (body ++ rest)).take 3 =
      encodeBase62Nat body.length 3 := List.take_left' henclen
  have hdrop3 : (encodeBase62Nat body.length 3 ++ (body ++ rest)).drop 3 = body ++ rest :=
    List.drop_left' henclen
  have hdecL : decodeBase62 (encodeBase62Nat body.length 3) = ((body.length : ℕ) : ℤ) := by
    rw [decodeBase62_encodeNat, Nat.mod_eq_of_lt (by omega)]
  have htakeb : (body ++ rest).take body.length = body := List.take_left' rfl
  have hpair : pairDecode body = some (codec.stringify v) := pairDecode_encode _ hbytes
  rw [hassoc, decodeMetadata]
  rw [if_neg (by rw [hlsum]; omega)]
  rw [htake3, hdecL]
  rw [if_neg (by rw [hlsum]; push_neg; constructor <;> [omega; (push_cast; omega)])]
  rw [hdrop3, Int.toNat_ofNat, htakeb]
  rw [if_neg (by rw [hblen]; omega)]
  rw [hpair]
  simp only [map_mod256_id _ hbytes, hround, Option.map_some']
  rw [hblen]

/-! ## C3: zeroIdAt / decodeZeroId timestamp round trip -/

set_option maxHeartbeats 1000000 in
/-- C3 (amended): for every timestamp with `MIN_TIMESTAMP ≤ ts` whose
encoded value `ts * 1000` fits the 9-character field (`ts * 1000 < 62^9` —
the original claim's upper end `MAX_TIMESTAMP` silently overflows the
field), any prefix/metadata/checksum options, and any random outcome of
length at least 1, `decodeZeroId (zeroIdAt ts opts) opts.prefix` succeeds
and returns exactly `ts` (sequence forced to 0, no drift). -/
theorem zeroIdAt_decode {T : Type} (codec : JsonCodec T) (ts : ℕ) (pfx : List Char)
    (metadata : Option T) (checksum : Bool) (rand : List Char)
    (hbytes : ∀ m, metadata = some m → ∀ b ∈ codec.stringify m, b < 256)
    (hmin : MIN_TIMESTAMP ≤ ts) (hmax : ts * 1000 < 62 ^ 9)
    (hrlen : 1 ≤ rand.length) (hrand : ∀ c ∈ rand, c ∈ BASE62_CHARS) :
    ∃ r : DecodedZeroId T,
      decodeZeroId codec (zeroIdAt codec ts pfx metadata checksum rand) pfx false = some r ∧
      r.timestamp = ts := by
  have hbridge : encodeBase62 ((ts : ℤ) * 1000) 9 = encodeBase62Nat (ts * 1000) 9 := by
    rw [show ((ts : ℤ) * 1000) = ((ts * 1000 : ℕ) : ℤ) by push_cast; ring]
    exact encodeBase62_ofNat _ 9
  set mpart := (match metadata with
    | some m => encodeMetadata codec m
    | none => ([] : List Char)) with hmp
  have hmmem : ∀ c ∈ mpart, c ∈ BASE62_CHARS := by
    rw [hmp]
    cases metadata with
    | none => intro c hc; simp at hc
    | some m => exact encodeMetadata_mem codec m (hbytes m rfl)
  set core := encodeBase62 ((ts : ℤ) * 1000) 9 ++ mpart ++ rand with hcoredef
  have hcoremem : ∀ c ∈ core, c ∈ BASE62_CHARS := by
    rw [hcoredef]
    intro c hc
    rcases List.mem_append.mp hc with h | h
    · rcases List.mem_append.mp h with h2 | h2
      · exact encodeBase62_mem_of_nonneg (by positivity) 9 c h2
      · exact hmmem c h2
    · exact hrand c h
  set cspart := (if checksum then calculateChecksum core else []) with hcsp
  have hcsmem : ∀ c ∈ cspart, c ∈ BASE62_CHARS := by
    rw [hcsp]
    cases checksum with
    | false => intro c hc; simp at hc
    | true => simpa using calculateChecksum_mem core hcoremem
  have hid : zeroIdAt codec ts pfx metadata checksum rand = pfx ++ core ++ cspart := rfl
  set tail := mpart ++ (rand ++ cspart) with htail
  have hshape : pfx ++ core ++ cspart = pfx ++ (encodeBase62Nat (ts * 1000) 9 ++ tail) := by
    rw [htail, hcoredef, hbridge]
    simp [List.append_assoc]
  have htmem : ∀ c ∈ tail, c ∈ BASE62_CHARS := by
    rw [htail]
    intro c hc
    rcases List.mem_append.mp hc with h | h
    · exact hmmem c h
    · rcases List.mem_append.mp h with h2 | h2
      · exact hrand c h2
      · exact hcsmem c h2
  have htlen : 1 ≤ tail.length := by
    rw [htail]
    simp only [List.length_append]
    omega
  have hdiv : ts * 1000 / 1000 = ts := by omega
  have h62 : (62 : ℕ) ^ 9 = 13537086546263552 := by norm_num
  have hmax2 : ts ≤ MAX_TIMESTAMP := by
    rw [MAX_TIMESTAMP]
    omega
  have hparts := decodeZeroId_parts codec pfx (ts * 1000) tail hmax htmem htlen
    (by rw [hdiv]; exact hmin) (by rw [hdiv]; exact hmax2)
  refine ⟨⟨ts, (decodeMetadata codec tail).map Prod.fst⟩, ?_, rfl⟩
  rw [hid, hshape, hparts, hdiv]

/-- Witness for C3 at `ts = 1700000000000` with default options. -/
theorem zeroIdAt_decode_witness :
    ∃ r : DecodedZeroId JVal,
      decodeZeroId jcodec (zeroIdAt jcodec 1700000000000 [] none false (List.replicate 7 '0'))
        [] false = some r ∧ r.timestamp = 1700000000000 :=
  zeroIdAt_decode jcodec 1700000000000 [] none false (List.replicate 7 '0')
    (fun m hm => by simp at hm) (by norm_num [MIN_TIMESTAMP]) (by norm_num)
    (by simp) (by decide)

set_option maxRecDepth 100000 in
/-- Counterexample for C3 as stated: `ts = MAX_TIMESTAMP` lies inside the
claimed domain `[MIN_TIMESTAMP, MAX_TIMESTAMP]`, but its encoded value
overflows the 9-character field, and decoding returns 5429506907472 — not
`ts`. -/
theorem zeroIdAt_decode_cex :
    MIN_TIMESTAMP ≤ 32503680000000 ∧ 32503680000000 ≤ MAX_TIMESTAMP ∧
    (decodeZeroId jcodec
        (zeroIdAt jcodec 32503680000000 [] none false (List.replicate 7 '0')) [] false).map
      DecodedZeroId.timestamp = some 5429506907472 ∧
    (5429506907472 : ℕ) ≠ 32503680000000 := by
  refine ⟨by norm_num [MIN_TIMESTAMP], by norm_num [MAX_TIMESTAMP], ?_, by norm_num⟩
  decide

/-! ## C4: metadata round trip through zeroId -/

set_option maxHeartbeats 1000000 in
/-- C4 (amended): for every metadata value whose JSON serialization fits the
3-character length prefix (`2 * byteLength < 62^3`; the original claim's
"every JSON-representable value" overflows it beyond 119163 bytes), every
prefix / randomLength / checksum option and random outcome, and a clock
reading whose encoded value fits the 9-character timestamp field,
`decodeZeroId (zeroId {metadata: v, ...opts}) prefix opts` returns a record
whose metadata equals `v`. -/
theorem zeroId_metadata_roundtrip {T : Type} (codec : JsonCodec T) (v : T) (s : GenState)
    (now : ℕ) (pfx : List Char) (checksum : Bool) (rand : List Char)
    (hbytes : ∀ b ∈ codec.stringify v, b < 256)
    (hround : codec.parse (codec.stringify v) = some v)
    (hsize : 2 * (codec.stringify v).length < 62 ^ 3)
    (hmin : MIN_TIMESTAMP ≤ now) (hmax : now * 1000 + 999 < 62 ^ 9)
    (hrand : ∀ c ∈ rand, c ∈ BASE62_CHARS) :
    ∃ r : DecodedZeroId T,
      decodeZeroId codec (zeroId codec s now pfx (some v) checksum rand).2 pfx checksum =
        some r ∧ r.metadata = some v := by
  set c := (zeroIdTick s now).counter % 1000 with hc
  have hclt : c < 1000 := Nat.mod_lt _ (by norm_num)
  set val := now * 1000 + c with hval
  have hbridge : encodeBase62 ((now : ℤ) * 1000 + ((c : ℕ) : ℤ)) 9 = encodeBase62Nat val 9 := by
    rw [show ((now : ℤ) * 1000 + ((c : ℕ) : ℤ)) = ((val : ℕ) : ℤ) by rw [hval]; push_cast; ring]
    exact encodeBase62_ofNat _ 9
  set mpart := encodeMetadata codec v with hmp
  have hmmem : ∀ ch ∈ mpart, ch ∈ BASE62_CHARS := encodeMetadata_mem codec v hbytes
  have hmplen : 3 ≤ mpart.length := by
    rw [hmp, encodeMetadata]
    simp [encodeBase62_length]
  set core := encodeBase62 ((now : ℤ) * 1000 + ((c : ℕ) : ℤ)) 9 ++ mpart ++ rand with hcoredef
  have hcoremem : ∀ ch ∈ core, ch ∈ BASE62_CHARS := by
    rw [hcoredef]
    intro ch hch
    rcases List.mem_append.mp hch with h | h
    · rcases List.mem_append.mp h with h2 | h2
      · exact encodeBase62_mem_of_nonneg (by positivity) 9 ch h2
      · exact hmmem ch h2
    · exact hrand ch h
  have hcoreshape : core = encodeBase62Nat val 9 ++ (mpart ++ rand) := by
    rw [hcoredef, hbridge, List.append_assoc]
  have h62 : (62 : ℕ) ^ 9 = 13537086546263552 := by norm_num
  have hvlt : val < 62 ^ 9 := by omega
  have hdivnow : val / 1000 = now := by omega
  have hmax2 : now ≤ MAX_TIMESTAMP := by
    rw [MAX_TIMESTAMP]
    omega
  have htmem : ∀ ch ∈ mpart ++ rand, ch ∈ BASE62_CHARS := by
    intro ch hch
    rcases List.mem_append.mp hch with h | h
    · exact hmmem ch h
    · exact hrand ch h
  have htlen : 1 ≤ (mpart ++ rand).length := by
    simp only [List.length_append]
    omega
  have hmeta : (decodeMetadata codec (mpart ++ rand)).map Prod.fst = some v := by
    rw [hmp, decodeMetadata_encodeMetadata codec v rand hbytes hround hsize]
    rfl
  have hdec2 : decodeZeroId codec (pfx ++ (encodeBase62Nat val 9 ++ (mpart ++ rand))) pfx false =
      some ⟨now, some v⟩ := by
    rw [decodeZeroId_parts codec pfx val (mpart ++ rand) hvlt htmem htlen
      (by rw [hdivnow]; exact hmin) (by rw [hdivnow]; exact hmax2)]
    rw [hdivnow, hmeta]
  refine ⟨⟨now, some v⟩, ?_, rfl⟩
  cases checksum with
  | false =>
      have hid : (zeroId codec s now pfx (some v) false rand).2 = pfx ++ core ++ [] := rfl
      rw [hid, List.append_nil, hcoreshape]
      exact hdec2
  | true =>
      have hid : (zeroId codec s now pfx (some v) true rand).2 =
          pfx ++ core ++ calculateChecksum core := rfl
      rw [hid, List.append_assoc, decodeZeroId_checksum codec pfx core, hcoreshape]
      exact hdec2

/-- Witness for C4: a number value, checksum on, one random character. -/
theorem zeroId_metadata_roundtrip_witness :
    ∃ r : DecodedZeroId JVal,
      decodeZeroId jcodec (zeroId jcodec ⟨0, 0⟩ 1700000000000 [] (some (JVal.num 7)) true
        ['z']).2 [] true = some r ∧ r.metadata = some (JVal.num 7) :=
  zeroId_metadata_roundtrip jcodec (JVal.num 7) ⟨0, 0⟩ 1700000000000 [] true ['z']
    (by decide) (by decide) (by decide)
    (by norm_num [MIN_TIMESTAMP]) (by norm_num) (by decide)

theorem encodeBase62Nat_mod (n w : ℕ) : encodeBase62Nat (n % 62 ^ w) w = encodeBase62Nat n w := by
  induction w generalizing n with
  | zero => rfl
  | succ w ih =>
      rw [encodeBase62Nat, encodeBase62Nat]
      have hdvd : (62 : ℕ) ∣ 62 ^ (w + 1) := dvd_pow_self 62 (by omega)
      have hmod : n % 62 ^ (w + 1) % 62 = n % 62 := Nat.mod_mod_of_dvd n hdvd
      have hsplit : n % (62 * 62 ^ w) = n % 62 + 62 * (n / 62 % 62 ^ w) := Nat.mod_mul
      have hpow : (62 : ℕ) ^ (w + 1) = 62 * 62 ^ w := by rw [pow_succ, mul_comm]
      have hdiv : n % 62 ^ (w + 1) / 62 = n / 62 % 62 ^ w := by
        rw [hpow, hsplit]
        omega
      rw [hmod, hdiv, ih]

set_option maxHeartbeats 1000000 in
/-- Behavior of `decodeMetadata` on a block whose length prefix reads zero: the empty
body is handed to the parser; when parsing the empty byte string fails
(`JSON.parse("")` throws), the result is `none`. -/
theorem decodeMetadata_zero_prefix {T : Type} (codec : JsonCodec T) (rest : List Char)
    (hparse : codec.parse [] = none) :
    decodeMetadata codec (encodeBase62Nat 0 3 ++ rest) = none := by
  have hlen3 : (encodeBase62Nat 0 3).length = 3 := encodeBase62Nat_length 0 3
  have hlsum : (encodeBase62Nat 0 3 ++ rest).length = 3 + rest.length := by
    simp [hlen3]
  have htake : (encodeBase62Nat 0 3 ++ rest).take 3 = encodeBase62Nat 0 3 :=
    List.take_left' hlen3
  have hdec : decodeBase62 (encodeBase62Nat 0 3) = ((0 : ℕ) : ℤ) := by
    rw [decodeBase62_encodeNat, Nat.zero_mod]
  rw [decodeMetadata, if_neg (by omega)]
  rw [htake, hdec]
  rw [if_neg (by
    rw [hlsum]
    push_cast
    intro hcon
    rcases hcon with h | h
    · exact h.elim
    · omega)]
  simp only [Nat.cast_zero, Int.toNat_zero, List.take_zero]
  rw [if_neg (by simp)]
  show (match pairDecode [] with
    | none => none
    | some bytes => (codec.parse (bytes.map (· % 256))).map
        (fun v => (v, 3 + ((0 : ℕ) : ℤ).toNat)) : Option (T × ℕ)) = none
  rw [show pairDecode [] = some [] from rfl]
  simp [hparse]

theorem cexAppendShape (A M R : List Char) :
    [] ++ (A ++ M ++ R) ++ [] = [] ++ (A ++ (M ++ R)) := by
  simp [List.append_assoc]

set_option maxHeartbeats 1000000 in
/-- Counterexample for C4 as stated: the JSON string of 119162 letters `a`
(a JSON-representable value) serializes to 119164 bytes; the metadata body
is then 238328 = 62³ characters, the 3-character length prefix wraps to
`"000"`, and decoding finds no metadata at all. -/
theorem zeroId_metadata_roundtrip_cex :
    ∃ r : DecodedZeroId JVal,
      decodeZeroId jcodec (zeroId jcodec ⟨0, 0⟩ 1700000000000 []
        (some (JVal.astr 119162)) false (List.replicate 7 '0')).2 [] false = some r ∧
      r.metadata = none := by
  have hparse0 : jcodec.parse [] = none := rfl
  set v := JVal.astr 119162 with hv
  have hslen : (jcodec.stringify v).length = 119164 := by
    show (jStringify v).length = 119164
    rw [hv]
    show (34 :: (List.replicate 119162 97 ++ [34]) : List ℕ).length = 119164
    rw [List.length_cons, List.length_append, List.length_replicate]
    rfl
  have hbytes : ∀ b ∈ jcodec.stringify v, b < 256 := by
    intro b hb
    exact jStringify_byte v b hb
  set body := (jcodec.stringify v).flatMap
    (fun byte => [b62Char (byte / 62), b62Char (byte % 62)]) with hbody
  have hblen : body.length = 238328 := by
    rw [hbody, flatMap_pair_length, hslen]
  have hmp : encodeMetadata jcodec v = encodeBase62Nat 0 3 ++ body := by
    simp only [encodeMetadata]
    rw [← hbody]
    congr 1
    rw [hblen, encodeBase62_ofNat]
    have hmod := encodeBase62Nat_mod 238328 3
    rw [show 238328 % 62 ^ 3 = 0 from by norm_num] at hmod
    exact hmod.symm
  have htmem : ∀ ch ∈ encodeMetadata jcodec v ++ List.replicate 7 '0', ch ∈ BASE62_CHARS := by
    intro ch hch
    rcases List.mem_append.mp hch with h | h
    · exact encodeMetadata_mem jcodec v hbytes ch h
    · rw [List.eq_of_mem_replicate h]
      decide
  have htlen : 1 ≤ (encodeMetadata jcodec v ++ List.replicate 7 '0').length := by
    rw [List.length_append, List.length_replicate]
    omega
  have hmeta : decodeMetadata jcodec (encodeMetadata jcodec v ++ List.replicate 7 '0') = none := by
    rw [hmp, List.append_assoc]
    exact decodeMetadata_zero_prefix jcodec (body ++ List.replicate 7 '0') hparse0
  have hdec2 : decodeZeroId jcodec
      ([] ++ (encodeBase62Nat 1700000000000000 9 ++
        (encodeMetadata jcodec v ++ List.replicate 7 '0'))) [] false =
      some ⟨1700000000000, none⟩ := by
    rw [decodeZeroId_parts jcodec [] 1700000000000000
      (encodeMetadata jcodec v ++ List.replicate 7 '0') (by norm_num) htmem htlen
      (by norm_num [MIN_TIMESTAMP]) (by norm_num [MAX_TIMESTAMP])]
    rw [hmeta]
    rfl
  have henc : encodeBase62 (((1700000000000 : ℕ) : ℤ) * 1000 +
      (((zeroIdTick ⟨0, 0⟩ 1700000000000).counter % 1000 : ℕ) : ℤ)) 9 =
      encodeBase62Nat 1700000000000000 9 := by
    rw [show (((1700000000000 : ℕ) : ℤ) * 1000 +
        (((zeroIdTick ⟨0, 0⟩ 1700000000000).counter % 1000 : ℕ) : ℤ)) =
        ((1700000000000000 : ℕ) : ℤ) from by norm_num [zeroIdTick]]
    exact encodeBase62_ofNat _ 9
  have hid0 : (zeroId jcodec ⟨0, 0⟩ 1700000000000 [] (some v) false (List.replicate 7 '0')).2 =
      [] ++ (encodeBase62 (((1700000000000 : ℕ) : ℤ) * 1000 +
        (((zeroIdTick ⟨0, 0⟩ 1700000000000).counter % 1000 : ℕ) : ℤ)) 9 ++
        encodeMetadata jcodec v ++ List.replicate 7 '0') ++ [] := rfl
  have hid : (zeroId jcodec ⟨0, 0⟩ 1700000000000 [] (some v) false (List.replicate 7 '0')).2 =
      [] ++ (encodeBase62Nat 1700000000000000 9 ++
        (encodeMetadata jcodec v ++ List.replicate 7 '0')) := by
    have hstep := cexAppendShape
      (encodeBase62 (((1700000000000 : ℕ) : ℤ) * 1000 +
        (((zeroIdTick ⟨0, 0⟩ 1700000000000).counter % 1000 : ℕ) : ℤ)) 9)
      (encodeMetadata jcodec v) (List.replicate 7 '0')
    rw [henc] at hstep
    exact hid0.trans hstep
  refine ⟨⟨1700000000000, none⟩, ?_, rfl⟩
  exact (congrArg (fun z => decodeZeroId jcodec z [] false) hid).trans hdec2

/-! ## C8: decoding identifiers generated without metadata -/

set_option maxHeartbeats 1000000 in
/-- C8 (amended): for an identifier generated by `zeroId` without metadata,
decoding succeeds and its metadata field is absent exactly when the
metadata-decode attempt on the random field structurally fails — in
particular always when the random field is shorter than 3 characters.  (The
original claim's "never itself decoded as a metadata block" fails for some
random outcomes; see the counterexample.) -/
theorem zeroId_no_metadata {T : Type} (codec : JsonCodec T) (s : GenState) (now : ℕ)
    (pfx : List Char) (checksum : Bool) (rand : List Char)
    (hmin : MIN_TIMESTAMP ≤ now) (hmax : now * 1000 + 999 < 62 ^ 9)
    (hrlen : 1 ≤ rand.length) (hrand : ∀ c ∈ rand, c ∈ BASE62_CHARS) :
    ∃ r : DecodedZeroId T,
      decodeZeroId codec (zeroId codec s now pfx none checksum rand).2 pfx checksum =
        some r ∧
      (r.metadata = none ↔ decodeMetadata codec rand = none) ∧
      (rand.length < 3 → r.metadata = none) := by
  set c := (zeroIdTick s now).counter % 1000 with hc
  have hclt : c < 1000 := Nat.mod_lt _ (by norm_num)
  set val := now * 1000 + c with hval
  have hbridge : encodeBase62 ((now : ℤ) * 1000 + ((c : ℕ) : ℤ)) 9 = encodeBase62Nat val 9 := by
    rw [show ((now : ℤ) * 1000 + ((c : ℕ) : ℤ)) = ((val : ℕ) : ℤ) by rw [hval]; push_cast; ring]
    exact encodeBase62_ofNat _ 9
  set core := encodeBase62 ((now : ℤ) * 1000 + ((c : ℕ) : ℤ)) 9 ++ [] ++ rand with hcoredef
  have hcoremem : ∀ ch ∈ core, ch ∈ BASE62_CHARS := by
    rw [hcoredef]
    intro ch hch
    rcases List.mem_append.mp hch with h | h
    · rcases List.mem_append.mp h with h2 | h2
      · exact encodeBase62_mem_of_nonneg (by positivity) 9 ch h2
      · simp at h2
    · exact hrand ch h
  have hcoreshape : core = encodeBase62Nat val 9 ++ ([] ++ rand) := by
    rw [hcoredef, hbridge, List.append_assoc]
  have h62 : (62 : ℕ) ^ 9 = 13537086546263552 := by norm_num
  have hvlt : val < 62 ^ 9 := by omega
  have hdivnow : val / 1000 = now := by omega
  have hmax2 : now ≤ MAX_TIMESTAMP := by
    rw [MAX_TIMESTAMP]
    omega
  have htmem : ∀ ch ∈ ([] : List Char) ++ rand, ch ∈ BASE62_CHARS := by
    intro ch hch
    rw [List.nil_append] at hch
    exact hrand ch hch
  have htlen : 1 ≤ (([] : List Char) ++ rand).length := by
    rw [List.nil_append]
    exact hrlen
  have hdec2 : decodeZeroId codec (pfx ++ (encodeBase62Nat val 9 ++ ([] ++ rand))) pfx false =
      some ⟨now, (decodeMetadata codec rand).map Prod.fst⟩ := by
    rw [decodeZeroId_parts codec pfx val ([] ++ rand) hvlt htmem htlen
      (by rw [hdivnow]; exact hmin) (by rw [hdivnow]; exact hmax2)]
    rw [hdivnow, List.nil_append]
  refine ⟨⟨now, (decodeMetadata codec rand).map Prod.fst⟩, ?_, ?_, ?_⟩
  · cases checksum with
    | false =>
        have hid : (zeroId codec s now pfx none false rand).2 = pfx ++ core ++ [] := rfl
        rw [hid, List.append_nil, hcoreshape]
        exact hdec2
    | true =>
        have hid : (zeroId codec s now pfx none true rand).2 =
            pfx ++ core ++ calculateChecksum core := rfl
        rw [hid, List.append_assoc, decodeZeroId_checksum codec pfx core, hcoreshape]
        exact hdec2
  · show (decodeMetadata codec rand).map Prod.fst = none ↔ decodeMetadata codec rand = none
    exact Option.map_eq_none'
  · intro hshort
    show (decodeMetadata codec rand).map Prod.fst = none
    rw [decodeMetadata, if_pos hshort]
    rfl

/-- Witness for C8 at a 2-character random outcome (too short to be a
metadata block). -/
theorem zeroId_no_metadata_witness :
    ∃ r : DecodedZeroId JVal,
      decodeZeroId jcodec (zeroId jcodec ⟨0, 0⟩ 1700000000000 [] none false ['A', 'B']).2
        [] false = some r ∧
      (r.metadata = none ↔ decodeMetadata jcodec ['A', 'B'] = none) ∧
      (List.length ['A', 'B'] < 3 → r.metadata = none) :=
  zeroId_no_metadata jcodec ⟨0, 0⟩ 1700000000000 [] false ['A', 'B']
    (by norm_num [MIN_TIMESTAMP]) (by norm_num) (by norm_num) (by decide)

set_option maxRecDepth 1000000 in
/-- Counterexample for C8 as stated: the random outcome `"0020r00"` (7
alphabet characters, the default random length) is itself a structurally
valid metadata block — length prefix `"002"`, byte pair `"0r"` = byte 53 =
the JSON text `"5"` — so the decoder returns metadata `5` for an identifier
generated without metadata. -/
theorem zeroId_no_metadata_cex :
    (decodeZeroId jcodec (zeroId jcodec ⟨0, 0⟩ 1700000000000 [] none false
      ("0020r00".data)).2 [] false).map DecodedZeroId.metadata =
      some (some (JVal.num 5)) := by
  decide

/-! ## C7: the buffer converters (evaluation at the failing input) -/

/-- C7 evaluation: on the all-zeros 16-character default-length body,
`toBuffer` packs 11 bytes (strictly fewer than 16, as claimed), but
`fromBuffer` restores only 15 characters — the pair does not round trip.
The packing maps 3 characters (18 bits) into 2 bytes (16 bits), so a round
trip is impossible; this contradicts the repository's own test
"toBuffer and fromBuffer should round-trip". -/
theorem toBuffer_fromBuffer_not_roundtrip :
    fromBuffer (toBuffer (List.replicate 16 '0') []) [] = List.replicate 15 '0' ∧
    (toBuffer (List.replicate 16 '0') []).length = 11 ∧
    fromBuffer (toBuffer (List.replicate 16 '0') []) [] ≠ List.replicate 16 '0' := by
  refine ⟨by decide, by decide, by decide⟩

/-! ## C10: extractTimestamp accepts strings that decodeZeroId rejects -/

set_option maxRecDepth 100000 in
/-- C10: the 9-character encoding of an in-range encoded timestamp is
accepted by `extractTimestamp` (so `getAge` / `isBefore` / `isAfter` treat
it as valid) but rejected by `decodeZeroId` and `isValidZeroId`
(length < 10); the same holds for a valid 9-character field followed by
non-alphabet characters (whole-string alphabet test fails). -/
theorem extractTimestamp_decodeZeroId_domains :
    extractTimestamp (encodeBase62Nat 1700000000000000 9) [] = some 1700000000000 ∧
    isBefore (encodeBase62Nat 1700000000000000 9) 1700000000001 [] = true ∧
    isAfter (encodeBase62Nat 1700000000000000 9) 1600000000000 [] = true ∧
    getAge 1700000000001 (encodeBase62Nat 1700000000000000 9) [] = some 1 ∧
    decodeZeroId jcodec (encodeBase62Nat 1700000000000000 9) [] false = none ∧
    isValidZeroId jcodec (encodeBase62Nat 1700000000000000 9) [] false = false ∧
    extractTimestamp (encodeBase62Nat 1700000000000000 9 ++ ['!', '!']) [] =
      some 1700000000000 ∧
    decodeZeroId jcodec (encodeBase62Nat 1700000000000000 9 ++ ['!', '!']) [] false = none ∧
    isValidZeroId jcodec (encodeBase62Nat 1700000000000000 9 ++ ['!', '!']) [] false =
      false := by
  decide

/-! ## C9: the UUID converters round-trip on 16-character bodies -/

theorem toHexPair_length (v : ℤ) : (toHexPair v).length = 2 := by
  rw [toHexPair]
  by_cases h : v < 0
  · rw [if_pos h]
    rfl
  · rw [if_neg h]
    rfl

theorem hex_flatMap_length (s : List Char) :
    (s.flatMap (fun c => toHexPair (b62Idx c))).length = 2 * s.length := by
  induction s with
  | nil => rfl
  | cons c rest ih =>
      rw [List.flatMap_cons, List.length_append, ih, toHexPair_length, List.length_cons]
      ring

theorem toHexPair_digit_facts : ∀ v : Fin 62,
    toHexPair ((v.val : ℕ) : ℤ) = [hexDigit (v.val / 16), hexDigit (v.val % 16)] ∧
    parseHexPair (hexDigit (v.val / 16)) (hexDigit (v.val % 16)) = some v.val ∧
    hexDigit (v.val / 16) ≠ '-' ∧ hexDigit (v.val % 16) ≠ '-' := by
  decide

theorem fromUUIDGo_flatMap (s : List Char) (h : ∀ c ∈ s, c ∈ BASE62_CHARS) :
    fromUUIDGo (s.flatMap (fun c => toHexPair (b62Idx c))) = s := by
  induction s with
  | nil => rfl
  | cons c rest ih =>
      have hc : c ∈ BASE62_CHARS := h c (by simp)
      have hvlt : b62Val c < 62 := by
        have h1 := (b62_mem_facts c hc).1
        have h2 := (b62_mem_facts c hc).2.1
        rw [b62Val]
        omega
      have hidx : b62Idx c = ((b62Val c : ℕ) : ℤ) := b62Idx_eq_val hc
      have hfin := toHexPair_digit_facts ⟨b62Val c, hvlt⟩
      rw [List.flatMap_cons, hidx, hfin.1]
      simp only [List.cons_append, List.nil_append]
      rw [fromUUIDGo, hfin.2.1]
      show [b62Char (b62Val c % 62)] ++
        fromUUIDGo (rest.flatMap fun d => toHexPair (b62Idx d)) = c :: rest
      rw [Nat.mod_eq_of_lt hvlt, (b62_mem_facts c hc).2.2.2]
      rw [List.singleton_append]
      rw [ih (fun d hd => h d (by simp [hd]))]

theorem hex_flatMap_no_dash (s : List Char) (h : ∀ c ∈ s, c ∈ BASE62_CHARS) :
    ∀ c ∈ s.flatMap (fun c => toHexPair (b62Idx c)), c ≠ '-' := by
  intro c hc
  rcases List.mem_flatMap.mp hc with ⟨a, ha, hca⟩
  have hmem : a ∈ BASE62_CHARS := h a ha
  have hvlt : b62Val a < 62 := by
    have h1 := (b62_mem_facts a hmem).1
    have h2 := (b62_mem_facts a hmem).2.1
    rw [b62Val]
    omega
  have hfin := toHexPair_digit_facts ⟨b62Val a, hvlt⟩
  rw [b62Idx_eq_val hmem, hfin.1] at hca
  rcases List.mem_cons.mp hca with rfl | hca'
  · exact hfin.2.2.1
  · rw [List.mem_singleton.mp hca']
    exact hfin.2.2.2

set_option maxHeartbeats 1000000 in
/-- C9: for every 16-character string over the base62 alphabet (no prefix),
`fromUUID (toUUID s)` returns `s` exactly: every alphabet index is below
62, so each hex byte maps back without the mod-62 collapse, and at exactly
16 characters the 32-hex-digit padding and truncation are the identity —
the pair is a true round trip on this domain even though it is lossy in
general. -/
theorem uuid_roundtrip (s : List Char) (hlen : s.length = 16)
    (hmem : ∀ c ∈ s, c ∈ BASE62_CHARS) :
    fromUUID (toUUID s []) [] = s := by
  set hex := s.flatMap (fun c => toHexPair (b62Idx c)) with hhex
  have hexlen : hex.length = 32 := by
    rw [hhex, hex_flatMap_length, hlen]
  have hexdash : ∀ c ∈ hex, c ≠ '-' := by
    rw [hhex]
    exact hex_flatMap_no_dash s hmem
  have h32 : (hex ++ List.replicate (32 - hex.length) '0').take 32 = hex := by
    rw [hexlen]
    rw [show (32 : ℕ) - 32 = 0 from rfl]
    rw [List.replicate_zero, List.append_nil]
    exact List.take_of_length_le (le_of_eq hexlen)
  have htu : toUUID s [] =
      hex.take 8 ++ '-' :: (hex.drop 8).take 4 ++ '-' :: (hex.drop 12).take 4 ++ '-' ::
        (hex.drop 16).take 4 ++ '-' :: (hex.drop 20).take 12 := by
    simp only [toUUID, List.length_nil, List.drop_zero]
    rw [← hhex, h32]
  have hfil_self : ∀ l : List Char, l ⊆ hex → l.filter (fun c => c != '-') = l := by
    intro l hsubl
    exact List.filter_eq_self.mpr (fun a ha => bne_iff_ne.mpr (hexdash a (hsubl ha)))
  have hdash : ∀ l : List Char, List.filter (fun c => c != '-') ('-' :: l) =
      List.filter (fun c => c != '-') l := by
    intro l
    rw [List.filter_cons_of_neg]
    decide
  have hfilter : (toUUID s []).filter (fun c => c != '-') =
      hex.take 8 ++ ((hex.drop 8).take 4 ++ ((hex.drop 12).take 4 ++
        ((hex.drop 16).take 4 ++ (hex.drop 20).take 12))) := by
    rw [htu]
    simp only [List.filter_append, hdash]
    rw [hfil_self _ (List.take_subset _ _)]
    rw [hfil_self _ ((List.take_subset _ _).trans (List.drop_subset _ _))]
    rw [hfil_self _ ((List.take_subset _ _).trans (List.drop_subset _ _))]
    rw [hfil_self _ ((List.take_subset _ _).trans (List.drop_subset _ _))]
    rw [hfil_self _ ((List.take_subset _ _).trans (List.drop_subset _ _))]
    simp [List.append_assoc]
  have e20 : (hex.drop 20).take 12 = hex.drop 20 :=
    List.take_of_length_le (by rw [List.length_drop, hexlen])
  have e16 : (hex.drop 16).take 4 ++ hex.drop 20 = hex.drop 16 := by
    have h := List.take_append_drop 4 (hex.drop 16)
    rw [List.drop_drop] at h
    exact h
  have e12 : (hex.drop 12).take 4 ++ hex.drop 16 = hex.drop 12 := by
    have h := List.take_append_drop 4 (hex.drop 12)
    rw [List.drop_drop] at h
    exact h
  have e8 : (hex.drop 8).take 4 ++ hex.drop 12 = hex.drop 8 := by
    have h := List.take_append_drop 4 (hex.drop 8)
    rw [List.drop_drop] at h
    exact h
  have hrecomp : hex.take 8 ++ ((hex.drop 8).take 4 ++ ((hex.drop 12).take 4 ++
      ((hex.drop 16).take 4 ++ (hex.drop 20).take 12))) = hex := by
    rw [e20, e16, e12, e8, List.take_append_drop]
  show [] ++ fromUUIDGo ((toUUID s []).filter (fun c => c != '-')) = s
  rw [List.nil_append, hfilter, hrecomp, hhex]
  exact fromUUIDGo_flatMap s hmem

/-- Witness for C9 at a concrete 16-character body. -/
theorem uuid_roundtrip_witness :
    fromUUID (toUUID ("0123456789ABCDEa".data) []) [] = "0123456789ABCDEa".data :=
  uuid_roundtrip ("0123456789ABCDEa".data) (by decide) (by decide)

/-! ## C2: monotonic ordering of a run of zeroId calls -/

theorem zeroIdRunValues_chain (nows : List ℕ) : ∀ t c : ℕ,
    List.Chain' (· ≤ ·) (t :: nows) → c + nows.length ≤ 999 →
    List.Chain' (· < ·) ((t * 1000 + c) :: zeroIdRunValues ⟨t, c⟩ nows) := by
  induction nows with
  | nil =>
      intro t c _ _
      simp [zeroIdRunValues]
  | cons now rest ih =>
      intro t c hchain hbudget
      have htn : t ≤ now := (List.chain'_cons.mp hchain).1
      have hc1 : List.Chain' (· ≤ ·) (now :: rest) := (List.chain'_cons.mp hchain).2
      simp only [List.length_cons] at hbudget
      rw [zeroIdRunValues]
      by_cases hnow : now = t
      · subst hnow
        have htick : zeroIdTick ⟨now, c⟩ now = ⟨now, c + 1⟩ := by
          simp [zeroIdTick]
        rw [htick]
        have hmod : (c + 1) % 1000 = c + 1 := Nat.mod_eq_of_lt (by omega)
        rw [hmod]
        rw [List.chain'_cons]
        exact ⟨by omega, ih now (c + 1) hc1 (by omega)⟩
      · have htlt : t < now := lt_of_le_of_ne htn (fun h => hnow h.symm)
        have htick : zeroIdTick ⟨t, c⟩ now = ⟨now, 0⟩ := by
          simp [zeroIdTick, hnow]
        rw [htick]
        rw [List.chain'_cons]
        refine ⟨?_, ih now 0 hc1 (by omega)⟩
        have : (0 : ℕ) % 1000 = 0 := rfl
        rw [this]
        omega

theorem zeroIdRunValues_strict (s0 : GenState) (nows : List ℕ)
    (hlen : nows.length ≤ 1000)
    (hchain : List.Chain' (· ≤ ·) nows)
    (hfresh : ∀ n0, nows.head? = some n0 → n0 ≠ s0.lastTimestamp) :
    List.Chain' (· < ·) (zeroIdRunValues s0 nows) := by
  cases nows with
  | nil => simp [zeroIdRunValues]
  | cons n rest =>
      have hne : n ≠ s0.lastTimestamp := hfresh n rfl
      have htick : zeroIdTick s0 n = ⟨n, 0⟩ := by
        simp [zeroIdTick, hne]
      rw [zeroIdRunValues, htick]
      simp only [List.length_cons] at hlen
      have h := zeroIdRunValues_chain rest n 0 hchain (by omega)
      have h0 : (0 : ℕ) % 1000 = 0 := rfl
      rw [h0]
      exact h

theorem zeroIdRunValues_le (s0 : GenState) (nows : List ℕ) :
    ∀ v ∈ zeroIdRunValues s0 nows, ∃ n ∈ nows, v ≤ n * 1000 + 999 := by
  induction nows generalizing s0 with
  | nil =>
      intro v hv
      simp [zeroIdRunValues] at hv
  | cons now rest ih =>
      intro v hv
      rw [zeroIdRunValues] at hv
      rcases List.mem_cons.mp hv with rfl | hv'
      · exact ⟨now, by simp, by
          have : (zeroIdTick s0 now).counter % 1000 < 1000 := Nat.mod_lt _ (by norm_num)
          omega⟩
      · rcases ih (zeroIdTick s0 now) v hv' with ⟨n, hn, hvn⟩
        exact ⟨n, by simp [hn], hvn⟩

set_option maxHeartbeats 1000000 in
theorem zeroIdRun_take9 {T : Type} (codec : JsonCodec T) (calls : List (ZeroIdCall T)) :
    ∀ s : GenState,
    (zeroIdRun codec s calls).map (fun id => id.take 9) =
      (zeroIdRunValues s (calls.map ZeroIdCall.now)).map (fun v => encodeBase62Nat v 9) := by
  induction calls with
  | nil => intro s; rfl
  | cons call rest ih =>
      intro s
      rw [zeroIdRun, List.map_cons, List.map_cons, zeroIdRunValues, List.map_cons]
      have hstate : (zeroId codec s call.now [] call.metadata call.checksum call.rand).1 =
          zeroIdTick s call.now := rfl
      rw [hstate, ih (zeroIdTick s call.now)]
      congr 1

theorem zeroIdRun_length {T : Type} (codec : JsonCodec T) (calls : List (ZeroIdCall T)) :
    ∀ s : GenState, ∀ id ∈ zeroIdRun codec s calls, 9 ≤ id.length := by
  induction calls with
  | nil =>
      intro s id hid
      simp [zeroIdRun] at hid
  | cons call rest ih =>
      intro s id hid
      rw [zeroIdRun] at hid
      rcases List.mem_cons.mp hid with rfl | hid'
      · show 9 ≤ (([] : List Char) ++ (encodeBase62 _ 9 ++ _ ++ call.rand) ++ _).length
        simp [encodeBase62_length]
      · exact ih _ id hid'

theorem compareZeroIds_of_take9 (a b : List Char) (ha : 9 ≤ a.length) (hb : 9 ≤ b.length)
    (h : jsLt (a.take 9) (b.take 9) = true) : compareZeroIds a b [] = some (-1) := by
  show (if a.length < 9 ∨ b.length < 9 then none
    else if jsLt (a.take 9) (b.take 9) then some (-1)
    else if jsLt (b.take 9) (a.take 9) then some 1 else some 0) = some (-1)
  rw [if_neg (by omega), if_pos h]

set_option maxHeartbeats 1000000 in
/-- C2 (amended): for a sequence of at most 1000 consecutive `zeroId` calls
(empty prefix) whose observed wall-clock milliseconds are non-decreasing,
with no `resetCounter` in between, whose first call observes a millisecond
different from the generator state's stored `lastTimestamp` (without this
the in-flight counter can pass 1000 and wrap — see the counterexample),
and whose encoded timestamps fit the 9-character field, the encoded
timestamp values are pairwise strictly increasing and each later
identifier's 9-character timestamp field is strictly greater as a string,
so `compareZeroIds` reproduces generation order. -/
theorem zeroId_run_sorted {T : Type} (codec : JsonCodec T) (s0 : GenState)
    (calls : List (ZeroIdCall T))
    (hlen : calls.length ≤ 1000)
    (hchain : List.Chain' (· ≤ ·) (calls.map ZeroIdCall.now))
    (hfresh : ∀ c0, calls.head? = some c0 → c0.now ≠ s0.lastTimestamp)
    (hbound : ∀ c ∈ calls, c.now * 1000 + 999 < 62 ^ 9) :
    (zeroIdRunValues s0 (calls.map ZeroIdCall.now)).Pairwise (· < ·) ∧
    (zeroIdRun codec s0 calls).Pairwise
      (fun a b => jsLt (a.take 9) (b.take 9) = true ∧
        compareZeroIds a b [] = some (-1)) := by
  have hfresh' : ∀ n0, (calls.map ZeroIdCall.now).head? = some n0 →
      n0 ≠ s0.lastTimestamp := by
    intro n0 hn0
    rw [List.head?_map] at hn0
    cases hc : calls.head? with
    | none => rw [hc] at hn0; simp at hn0
    | some c0 =>
        rw [hc] at hn0
        simp at hn0
        rw [← hn0]
        exact hfresh c0 hc
  have hchainlt := zeroIdRunValues_strict s0 (calls.map ZeroIdCall.now)
    (by rw [List.length_map]; exact hlen) hchain hfresh'
  have hpv : (zeroIdRunValues s0 (calls.map ZeroIdCall.now)).Pairwise (· < ·) :=
    List.chain'_iff_pairwise.mp hchainlt
  refine ⟨hpv, ?_⟩
  have hvbound : ∀ v ∈ zeroIdRunValues s0 (calls.map ZeroIdCall.now), v < 62 ^ 9 := by
    intro v hv
    rcases zeroIdRunValues_le s0 _ v hv with ⟨n, hn, hvn⟩
    rcases List.mem_map.mp hn with ⟨c, hc, rfl⟩
    have := hbound c hc
    omega
  have hpenc : (zeroIdRunValues s0 (calls.map ZeroIdCall.now)).Pairwise
      (fun v1 v2 => jsLt (encodeBase62Nat v1 9) (encodeBase62Nat v2 9) = true) := by
    refine hpv.imp_of_mem ?_
    intro v1 v2 h1 h2 hlt
    exact encodeBase62Nat_strictMono 9 v1 v2 hlt (hvbound v2 h2)
  have hptake : (zeroIdRun codec s0 calls).Pairwise
      (fun a b => jsLt (a.take 9) (b.take 9) = true) := by
    have hmapped : ((zeroIdRun codec s0 calls).map (fun id => id.take 9)).Pairwise
        (fun x y => jsLt x y = true) := by
      rw [zeroIdRun_take9 codec calls s0]
      exact List.pairwise_map.mpr hpenc
    exact List.pairwise_map.mp hmapped
  refine hptake.imp_of_mem ?_
  intro a b ha hb hj
  exact ⟨hj, compareZeroIds_of_take9 a b (zeroIdRun_length codec calls s0 a ha)
    (zeroIdRun_length codec calls s0 b hb) hj⟩

/-- Witness for C2: three calls, two in the same millisecond, from a fresh
state. -/
theorem zeroId_run_sorted_witness :
    (zeroIdRunValues ⟨0, 0⟩ (([⟨1700000000000, none, false, ['0']⟩,
        ⟨1700000000000, none, false, ['1']⟩,
        ⟨1700000000001, none, false, ['2']⟩] : List (ZeroIdCall JVal)).map
          ZeroIdCall.now)).Pairwise (· < ·) ∧
    (zeroIdRun jcodec ⟨0, 0⟩ [⟨1700000000000, none, false, ['0']⟩,
        ⟨1700000000000, none, false, ['1']⟩,
        ⟨1700000000001, none, false, ['2']⟩]).Pairwise
      (fun a b => jsLt (a.take 9) (b.take 9) = true ∧
        compareZeroIds a b [] = some (-1)) :=
  zeroId_run_sorted jcodec ⟨0, 0⟩ _ (by norm_num)
    (by
      simp only [List.map_cons, List.map_nil, List.chain'_cons, List.chain'_singleton]
      norm_num)
    (fun c0 hc0 => by
      rw [show ([⟨1700000000000, none, false, ['0']⟩,
        ⟨1700000000000, none, false, ['1']⟩,
        ⟨1700000000001, none, false, ['2']⟩] : List (ZeroIdCall JVal)).head? =
          some ⟨1700000000000, none, false, ['0']⟩ from rfl] at hc0
      rw [← Option.some.inj hc0]
      decide)
    (by intro c hc; fin_cases hc <;> norm_num)

theorem foldl_tick_const (k : ℕ) : ∀ c : ℕ,
    List.foldl zeroIdTick ⟨5, c⟩ (List.replicate k 5) = ⟨5, c + k⟩ := by
  induction k with
  | zero =>
      intro c
      simp
  | succ k ih =>
      intro c
      rw [List.replicate_succ, List.foldl_cons]
      have ht : zeroIdTick ⟨5, c⟩ 5 = ⟨5, c + 1⟩ := by
        simp [zeroIdTick]
      rw [ht, ih (c + 1)]
      congr 1
      omega

set_option maxRecDepth 100000 in
set_option maxHeartbeats 1000000 in
/-- Counterexample for C2 as stated: 999 same-millisecond calls (no reset)
bring the state to `⟨5, 998⟩`; two further calls in that same millisecond —
a 2-call sequence with non-decreasing milliseconds — produce counter 999
and then 1000, which wraps to sequence 0, so the later identifier's
timestamp field is strictly smaller and `compareZeroIds` returns 1 instead
of -1. -/
theorem zeroId_run_sorted_cex :
    List.foldl zeroIdTick ⟨0, 0⟩ (List.replicate 999 5) = (⟨5, 998⟩ : GenState) ∧
    zeroIdRun jcodec ⟨5, 998⟩ [⟨5, none, false, ['0']⟩, ⟨5, none, false, ['0']⟩] =
      [encodeBase62Nat 5999 9 ++ ['0'], encodeBase62Nat 5000 9 ++ ['0']] ∧
    compareZeroIds (encodeBase62Nat 5999 9 ++ ['0'])
      (encodeBase62Nat 5000 9 ++ ['0']) [] = some 1 := by
  refine ⟨?_, by decide, by decide⟩
  rw [show (999 : ℕ) = 998 + 1 from rfl, List.replicate_succ, List.foldl_cons]
  rw [show zeroIdTick ⟨0, 0⟩ 5 = ⟨5, 0⟩ from by simp [zeroIdTick]]
  rw [foldl_tick_const 998 0]
